import Mathlib

/-!
Verification development for the storage PII scanner
(`runbooks/security/Security-Scan-StoragePII.py`).

The scanning core is embedded shallowly:

* Python `re` is embedded as a small backtracking matcher `mrun` over a
  regex AST `RE` covering exactly the constructs the nine `PII_PATTERNS`
  use: character classes, sequencing, greedy counted repetition, one
  capture group, and the word-boundary assertion `\b`.  Results are
  returned in Python's backtracking preference order, so the head of the
  result list is the match Python picks.  Character classes `\d`, `\s`,
  `\w` are taken at their ASCII meaning (the texts in the repository's
  scenarios are ASCII).
* `re.findall` is `reFindallCs`: non-overlapping leftmost scanning;
  when the pattern has exactly one capture group the entries are the
  group captures (empty when the group did not participate), otherwise
  the full matched substrings.
* Redaction, scanning, blob scanning and account walking are translated
  function by function; Python dict results are structures whose fields
  for absent keys carry the defaults the call sites read via `.get`.
  Partial Python operations (string indexing on an empty string) are
  modelled in `Option`, `none` standing for a raised exception.
-/

set_option autoImplicit false

namespace PIIScan

abbrev Chars := List Char

/-- Span of positions in the subject text (start, stop). -/
abbrev Span := Nat × Nat

/-- Regex AST covering the constructs used by `PII_PATTERNS`. -/
inductive RE where
  | cls (p : Char → Bool)
  | wb
  | seq (a b : RE)
  | rep (a : RE) (lo : Nat) (hi : Option Nat)
  | grp (a : RE)

/-- One matcher result: end position and the span of capture group 1. -/
structure MRes where
  fin : Nat
  cap : Option Span
deriving DecidableEq, Repr

/-- ASCII `\w` as used by the `\b` assertion. -/
def wordChar (c : Char) : Bool := c.isAlphanum || c = '_'

def isWordAt (cs : Chars) (i : Nat) : Bool :=
  match cs[i]? with
  | some c => wordChar c
  | none => false

/-- `\b` holds at position `i` iff exactly one of the neighbouring
positions holds a word character (out of range counts as non-word). -/
def atBoundary (cs : Chars) (i : Nat) : Bool :=
  (decide (0 < i) && isWordAt cs (i - 1)) != isWordAt cs i

/-- Backtracking matcher.  `mrun cs fuel re i cap` returns the possible
ends of a match of `re` starting at position `i` of `cs`, in Python's
backtracking preference order (greedy repetitions try the longer
alternative first).  `fuel` decreases at every recursive call; with
enough fuel the head of the list is the match Python's engine selects. -/
def mrun (cs : Chars) : Nat → RE → Nat → Option Span → List MRes
  | 0, _, _, _ => []
  | Nat.succ f, re, i, cap =>
    match re with
    | .cls p =>
      match cs[i]? with
      | some c => if p c then [⟨i + 1, cap⟩] else []
      | none => []
    | .wb => if atBoundary cs i then [⟨i, cap⟩] else []
    | .seq a b => (mrun cs f a i cap).flatMap fun r => mrun cs f b r.fin r.cap
    | .grp a => (mrun cs f a i cap).map fun r => ⟨r.fin, some (i, r.fin)⟩
    | .rep _ 0 (some 0) => [⟨i, cap⟩]
    | .rep a 0 (some (Nat.succ h)) =>
      ((mrun cs f a i cap).flatMap fun r =>
        mrun cs f (.rep a 0 (some h)) r.fin r.cap) ++ [⟨i, cap⟩]
    | .rep a 0 none =>
      ((mrun cs f a i cap).flatMap fun r =>
        mrun cs f (.rep a 0 none) r.fin r.cap) ++ [⟨i, cap⟩]
    | .rep _ (Nat.succ _) (some 0) => []
    | .rep a (Nat.succ l) (some (Nat.succ h)) =>
      (mrun cs f a i cap).flatMap fun r =>
        mrun cs f (.rep a l (some h)) r.fin r.cap
    | .rep a (Nat.succ l) none =>
      (mrun cs f a i cap).flatMap fun r =>
        mrun cs f (.rep a l none) r.fin r.cap

/-- Fuel amply covering the matcher's recursion depth on `cs`. -/
def bigFuel (cs : Chars) : Nat := (cs.length + 2) * 200

/-- The match Python's engine produces at position `i`, if any. -/
def matchAt (cs : Chars) (re : RE) (i : Nat) : Option MRes :=
  (mrun cs (bigFuel cs) re i none).head?

/-- Characters `i ≤ k < j` of `cs` (Python `text[i:j]`). -/
def sliceCs (cs : Chars) (i j : Nat) : Chars := (cs.take j).drop i

/-- Non-overlapping leftmost scan, as `re.finditer`/`re.findall` do it:
try each position from the left; after a match resume at its end (or one
further for an empty match).  `steps` is fuel bounding the number of
iterations; `cs.length + 2` always suffices since the position strictly
increases. -/
def findSpansAux (cs : Chars) (re : RE) : Nat → Nat → List (Nat × MRes)
  | 0, _ => []
  | Nat.succ steps, pos =>
    if cs.length < pos then []
    else
      match matchAt cs re pos with
      | some r =>
        (pos, r) :: findSpansAux cs re steps (if pos < r.fin then r.fin else pos + 1)
      | none =>
        if pos = cs.length then [] else findSpansAux cs re steps (pos + 1)

def findSpans (cs : Chars) (re : RE) : List (Nat × MRes) :=
  findSpansAux cs re (cs.length + 2) 0

/-- Whether the pattern contains a capture group (decides the shape of
`re.findall` results). -/
def hasGrp : RE → Bool
  | .cls _ => false
  | .wb => false
  | .seq a b => hasGrp a || hasGrp b
  | .rep a _ _ => hasGrp a
  | .grp _ => true

/-- `re.findall pattern text` over character lists: the full matched
substrings for group-free patterns, the group-1 captures (empty string
when the group did not participate) when the pattern has a group. -/
def reFindallCs (re : RE) (cs : Chars) : List Chars :=
  (findSpans cs re).map fun sr =>
    if hasGrp re then
      match sr.2.cap with
      | some ab => sliceCs cs ab.1 ab.2
      | none => []
    else sliceCs cs sr.1 sr.2.fin

/-! ### The nine PII patterns -/

def digitB (c : Char) : Bool := c.isDigit
def upperB (c : Char) : Bool := 'A' ≤ c && c ≤ 'Z'
def lowerB (c : Char) : Bool := 'a' ≤ c && c ≤ 'z'
def spaceB (c : Char) : Bool := c = ' ' || c = '\t' || c = '\n' || c = '\r' || c = '\x0b' || c = '\x0c'

/-- `[-\s]` -/
def dashSpaceB (c : Char) : Bool := c = '-' || spaceB c
/-- `[\s.-]` -/
def phoneSepB (c : Char) : Bool := spaceB c || c = '.' || c = '-'
/-- `[A-Za-z0-9._%+-]` (email local part) -/
def emailLocalB (c : Char) : Bool :=
  c.isAlphanum || c = '.' || c = '_' || c = '%' || c = '+' || c = '-'
/-- `[A-Za-z0-9.-]` (email domain) -/
def emailDomB (c : Char) : Bool := c.isAlphanum || c = '.' || c = '-'
/-- `[A-Z|a-z]` (email TLD; the `|` is a literal inside the class) -/
def emailTldB (c : Char) : Bool := upperB c || lowerB c || c = '|'
/-- `[A-Z0-9]` -/
def upperDigitB (c : Char) : Bool := upperB c || digitB c
/-- `[^;]` -/
def notSemiB (c : Char) : Bool := !(c = ';')

def chrRE (c : Char) : RE := .cls (fun d => d = c)

/-- Literal string followed by a continuation regex. -/
def litSeq : List Char → RE → RE
  | [], rest => rest
  | c :: t, rest => .seq (chrRE c) (litSeq t rest)

def seqs : List RE → RE
  | [] => .wb
  | [r] => r
  | r :: t => .seq r (seqs t)

/-- `\b\d{3}[-\s]?\d{2}[-\s]?\d{4}\b` -/
def ssnRE : RE :=
  seqs [.wb, .rep (.cls digitB) 3 (some 3), .rep (.cls dashSpaceB) 0 (some 1),
        .rep (.cls digitB) 2 (some 2), .rep (.cls dashSpaceB) 0 (some 1),
        .rep (.cls digitB) 4 (some 4), .wb]

/-- `\b(?:\d{4}[-\s]?){3}\d{4}\b` -/
def ccRE : RE :=
  seqs [.wb,
        .rep (.seq (.rep (.cls digitB) 4 (some 4)) (.rep (.cls dashSpaceB) 0 (some 1))) 3 (some 3),
        .rep (.cls digitB) 4 (some 4), .wb]

/-- `\b[A-Za-z0-9._%+-]+@[A-Za-z0-9.-]+\.[A-Z|a-z]{2,}\b` -/
def emailRE : RE :=
  seqs [.wb, .rep (.cls emailLocalB) 1 none, chrRE '@', .rep (.cls emailDomB) 1 none,
        chrRE '.', .rep (.cls emailTldB) 2 none, .wb]

/-- The optional country-code capture group `(\+\d{1,2}\s)` of the phone pattern. -/
def phoneCcBody : RE :=
  .seq (chrRE '+') (.seq (.rep (.cls digitB) 1 (some 2)) (.cls spaceB))

/-- `\b(\+\d{1,2}\s)?\(?\d{3}\)?[\s.-]?\d{3}[\s.-]?\d{4}\b` -/
def phoneRE : RE :=
  seqs [.wb, .rep (.grp phoneCcBody) 0 (some 1), .rep (chrRE '(') 0 (some 1),
        .rep (.cls digitB) 3 (some 3), .rep (chrRE ')') 0 (some 1),
        .rep (.cls phoneSepB) 0 (some 1), .rep (.cls digitB) 3 (some 3),
        .rep (.cls phoneSepB) 0 (some 1), .rep (.cls digitB) 4 (some 4), .wb]

/-- `\b[A-Z]{1,2}[0-9]{6,9}\b` -/
def passportRE : RE :=
  seqs [.wb, .rep (.cls upperB) 1 (some 2), .rep (.cls digitB) 6 (some 9), .wb]

/-- `\b[A-Z]{1}[0-9]{7}\b` -/
def dlRE : RE :=
  seqs [.wb, .rep (.cls upperB) 1 (some 1), .rep (.cls digitB) 7 (some 7), .wb]

/-- `\b\d{1,3}\.\d{1,3}\.\d{1,3}\.\d{1,3}\b` -/
def ipRE : RE :=
  seqs [.wb, .rep (.cls digitB) 1 (some 3), chrRE '.', .rep (.cls digitB) 1 (some 3),
        chrRE '.', .rep (.cls digitB) 1 (some 3), chrRE '.', .rep (.cls digitB) 1 (some 3), .wb]

/-- `\b[A-Z0-9]{20}\b` -/
def awsRE : RE :=
  seqs [.wb, .rep (.cls upperDigitB) 20 (some 20), .wb]

/-- `DefaultEndpointsProtocol=https;AccountName=[^;]+;AccountKey=[^;]+;` -/
def azureRE : RE :=
  litSeq "DefaultEndpointsProtocol=https;AccountName=".data
    (.seq (.rep (.cls notSemiB) 1 none)
      (litSeq ";AccountKey=".data
        (.seq (.rep (.cls notSemiB) 1 none) (chrRE ';'))))

/-- The `PII_PATTERNS` registry, in source order. -/
def PII_PATTERNS : List (String × RE) :=
  [("SSN", ssnRE),
   ("Credit Card", ccRE),
   ("Email", emailRE),
   ("Phone Number", phoneRE),
   ("Passport Number", passportRE),
   ("US Driver License", dlRE),
   ("IP Address", ipRE),
   ("AWS Access Key", awsRE),
   ("Azure Connection String", azureRE)]

/-! ### Python string operations used by the redaction code

Partiality is explicit: `none` models a raised exception.  Python string
repetition with a non-positive count yields the empty string, so
`pyRepeat` takes an `Int` count and clamps. -/

/-- Python `c * n` for an `Int` count (non-positive counts give `""`). -/
def pyRepeat (c : Char) (n : Int) : Chars := List.replicate n.toNat c

/-- Python `s[-k:]` for `k ≥ 1`: the last `k` characters, or all of `s`
when it is shorter than `k`. -/
def pyLast (k : Nat) (s : Chars) : Chars := s.drop (s.length - k)

/-- Python `s.split(sep)` for a one-character separator. -/
def pySplit (sep : Char) : Chars → List Chars
  | [] => [[]]
  | c :: rest =>
    if c = sep then [] :: pySplit sep rest
    else
      match pySplit sep rest with
      | [] => [[c]]
      | p :: ps => (c :: p) :: ps

/-- The body of the redaction loop of `scan_text_for_pii` for one match.
`none` models a raised exception (indexing an empty string); `some none`
models the Email branch silently appending nothing when the match has no
`'@'`; `some (some r)` appends the redacted value `r`. -/
def redactOne (name : String) (m : Chars) : Option (Option Chars) :=
  if name = "Email" then
    let parts := pySplit '@' m
    if 1 < parts.length then
      match (parts.headD []).head?, (parts.headD []).getLast? with
      | some c0, some cl =>
        some (some ([c0] ++ pyRepeat '*' (((parts.headD []).length : Int) - 2)
          ++ [cl] ++ '@' :: parts.getD 1 []))
      | _, _ => none
    else some none
  else if name = "SSN" || name = "Credit Card" || name = "Phone Number" then
    some (some (pyRepeat '*' ((m.length : Int) - 4) ++ pyLast 4 m))
  else if 6 < m.length then
    some (some (m.take 3 ++ pyRepeat '*' ((m.length : Int) - 6) ++ pyLast 3 m))
  else
    match m.head?, m.getLast? with
    | some c0, some cl => some (some ([c0] ++ pyRepeat '*' ((m.length : Int) - 2) ++ [cl]))
    | _, _ => none

/-- The redaction loop over a pattern's match list: builds
`redacted_matches` in order, aborting (`none`) if any step raises. -/
def redactAll (name : String) : List Chars → Option (List Chars)
  | [] => some []
  | m :: rest =>
    match redactOne name m with
    | none => none
    | some none => redactAll name rest
    | some (some r) => (redactAll name rest).map (r :: ·)

/-- One pattern's `Finding`: match count and up to three redacted samples. -/
structure Finding where
  count : Nat
  samples : List String
deriving DecidableEq, Repr

/-- The pattern loop of `scan_text_for_pii`: for each registry entry run
`re.findall`; on a non-empty match list redact and record a `Finding`.
`none` models an exception escaping the loop. -/
def scanPatterns (cs : Chars) : List (String × RE) → Option (List (String × Finding))
  | [] => some []
  | p :: rest =>
    let ms := reFindallCs p.2 cs
    if ms.isEmpty then scanPatterns cs rest
    else
      match redactAll p.1 ms with
      | none => none
      | some red =>
        (scanPatterns cs rest).map
          fun fs => (p.1, ⟨ms.length, (red.take 3).map String.mk⟩) :: fs

/-- `scan_text_for_pii`, with a raised exception modelled as `none`. -/
def scanTextOpt (text : String) : Option (List (String × Finding)) :=
  scanPatterns text.data PII_PATTERNS

/-- `scan_text_for_pii` (total: `scanPatterns_total` below shows the
exception case never happens). -/
def scan_text_for_pii (text : String) : List (String × Finding) :=
  (scanTextOpt text).getD []

/-! ### Strict UTF-8 decoding (`bytes.decode('utf-8')`) -/

/-- A UTF-8 continuation byte `0x80..0xBF`. -/
def contByte (b : Nat) : Bool := 128 ≤ b && b < 192

/-- Strict UTF-8 decoding of a byte list: rejects stray continuation
bytes, overlong encodings, surrogates and out-of-range code points, as
Python's `bytes.decode('utf-8')` does.  `none` models `UnicodeDecodeError`. -/
def utf8Decode : List Nat → Option Chars
  | [] => some []
  | b :: rest =>
    if b < 128 then (utf8Decode rest).map (Char.ofNat b :: ·)
    else if b < 194 then none
    else if b < 224 then
      match rest with
      | b1 :: rest1 =>
        if contByte b1 then
          (utf8Decode rest1).map (Char.ofNat ((b - 192) * 64 + (b1 - 128)) :: ·)
        else none
      | [] => none
    else if b < 240 then
      match rest with
      | b1 :: b2 :: rest2 =>
        let cp := (b - 224) * 4096 + (b1 - 128) * 64 + (b2 - 128)
        if contByte b1 && contByte b2 && decide (2048 ≤ cp) &&
            !(decide (55296 ≤ cp) && decide (cp < 57344)) then
          (utf8Decode rest2).map (Char.ofNat cp :: ·)
        else none
      | _ => none
    else if b < 245 then
      match rest with
      | b1 :: b2 :: b3 :: rest3 =>
        let cp := (b - 240) * 262144 + (b1 - 128) * 4096 + (b2 - 128) * 64 + (b3 - 128)
        if contByte b1 && contByte b2 && contByte b3 &&
            decide (65536 ≤ cp) && decide (cp ≤ 1114111) then
          (utf8Decode rest3).map (Char.ofNat cp :: ·)
        else none
      | _ => none
    else none

/-! ### Object scanner (`scan_blob`) -/

/-- One stored object: its name, the result of fetching its size
metadata, and the result of fetching its content bytes.  An `error`
models the corresponding SDK call raising (message `e` gives
`str(e)`). -/
structure Blob where
  name : String
  props : Except String Nat
  content : Except String (List Nat)

/-- `scan_blob`'s result dict.  Keys the Python dict omits are the
defaults the call sites read via `.get`: absent `findings` is `[]`,
absent `has_pii` is `false`; absent `size_mb` is kept as `none` (read as
`0` via `.get("size_mb", 0)`). -/
structure ScanOutcome where
  scanned : Bool
  reason : Option String
  size_mb : Option ℚ
  findings : List (String × Finding)
  has_pii : Bool
deriving DecidableEq

/-- `scan_blob(blob_client, max_size_mb)`: fetch size metadata; skip
objects over the size cap without fetching content; fetch and strictly
decode content; scan decoded text; convert any fetch error into a
`scanned=false` outcome with an `Error:` reason. -/
def scan_blob (b : Blob) (max_size_mb : Nat) : ScanOutcome :=
  match b.props with
  | .error e => ⟨false, some ("Error: " ++ e), none, [], false⟩
  | .ok size =>
    if max_size_mb * 1024 * 1024 < size then
      ⟨false, some "File too large", some ((size : ℚ) / (1024 * 1024)), [], false⟩
    else
      match b.content with
      | .error e => ⟨false, some ("Error: " ++ e), none, [], false⟩
      | .ok bytes =>
        match utf8Decode bytes with
        | some chars =>
          let f := scan_text_for_pii (String.mk chars)
          ⟨true, none, some ((size : ℚ) / (1024 * 1024)), f, decide (0 < f.length)⟩
        | none =>
          ⟨false, some "Not a text file", some ((size : ℚ) / (1024 * 1024)), [], false⟩

/-! ### Container walk and account scan (`scan_storage_account`) -/

/-- One entry of a container's `findings` list. -/
structure BlobFinding where
  blob_name : String
  size_mb : ℚ
  pii_types : List String
  details : List (String × Finding)
deriving DecidableEq

/-- The mutable per-container counters (`container_results`). -/
structure CState where
  blobs_scanned : Nat
  blobs_with_pii : Nat
  findings : List BlobFinding
deriving DecidableEq

/-- The account-level counters the blob loop also updates (`results`). -/
structure AccState where
  blobs_scanned : Nat
  pii_found_count : Nat
deriving DecidableEq

/-- One step of the blob loop body after `scan_blob` returned `r`. -/
def blobStep (b : Blob) (r : ScanOutcome) (cst : CState) (ast : AccState) :
    CState × AccState :=
  if r.scanned then
    if r.has_pii then
      (⟨cst.blobs_scanned + 1, cst.blobs_with_pii + 1,
        cst.findings ++ [⟨b.name, (r.size_mb.getD 0), r.findings.map Prod.fst, r.findings⟩]⟩,
       ⟨ast.blobs_scanned + 1, ast.pii_found_count + 1⟩)
    else
      (⟨cst.blobs_scanned + 1, cst.blobs_with_pii, cst.findings⟩,
       ⟨ast.blobs_scanned + 1, ast.pii_found_count⟩)
  else (cst, ast)

/-- The blob loop of `scan_storage_account`: breaks once `scan_count`
reaches `scan_depth`; every examined object advances `scan_count`
regardless of its scan outcome. -/
def blobLoop (maxMB cap : Nat) : List Blob → Nat → CState → AccState → CState × AccState
  | [], _, cst, ast => (cst, ast)
  | b :: rest, scanCount, cst, ast =>
    if cap ≤ scanCount then (cst, ast)
    else
      let st := blobStep b (scan_blob b maxMB) cst ast
      blobLoop maxMB cap rest (scanCount + 1) st.1 st.2

/-- The blob loop without the `scan_depth` break (used to state that the
capped loop examines exactly the first `scan_depth` listed objects). -/
def blobLoopU (maxMB : Nat) : List Blob → CState → AccState → CState × AccState
  | [], cst, ast => (cst, ast)
  | b :: rest, cst, ast =>
    let st := blobStep b (scan_blob b maxMB) cst ast
    blobLoopU maxMB rest st.1 st.2

/-- One container listing. -/
structure Container where
  name : String
  blobs : List Blob

/-- `container_results` as handed upward. -/
structure ContainerResult where
  container_name : String
  blobs_scanned : Nat
  blobs_with_pii : Nat
  findings : List BlobFinding
deriving DecidableEq

/-- `results` of `scan_storage_account`. -/
structure AccountResult where
  storage_account : String
  resource_group : String
  scan_time : String
  containers_scanned : Nat
  blobs_scanned : Nat
  pii_found_count : Nat
  pii_findings : List ContainerResult
deriving DecidableEq

/-- The container loop: walk each container's blob list with fresh
per-container counters, then append the container's result to
`pii_findings` only when it found PII. -/
def accountLoop (maxMB cap : Nat) :
    List Container → AccState → Nat → List ContainerResult →
      AccState × Nat × List ContainerResult
  | [], ast, nCont, pf => (ast, nCont, pf)
  | c :: rest, ast, nCont, pf =>
    let st := blobLoop maxMB cap c.blobs 0 ⟨0, 0, []⟩ ast
    let cr : ContainerResult := ⟨c.name, st.1.blobs_scanned, st.1.blobs_with_pii, st.1.findings⟩
    accountLoop maxMB cap rest st.2 (nCont + 1)
      (if 0 < cr.blobs_with_pii then pf ++ [cr] else pf)

/-- `scan_storage_account`: the `containers` argument is the outcome of
`blob_service.list_containers()`; on an enumeration error the `except`
clause leaves the initial `results` unchanged. -/
def scan_storage_account (account_name resource_group scan_time : String)
    (containers : Except String (List Container)) (max_size_mb scan_depth : Nat) :
    AccountResult :=
  match containers with
  | .error _ => ⟨account_name, resource_group, scan_time, 0, 0, 0, []⟩
  | .ok cs =>
    let st := accountLoop max_size_mb scan_depth cs ⟨0, 0⟩ 0 []
    ⟨account_name, resource_group, scan_time, st.2.1, st.1.blobs_scanned,
     st.1.pii_found_count, st.2.2⟩

/-- The `ContainerResult` the walk produces for one container (the blob
loop's container-side fields do not depend on the account counters,
`blobLoop_fst_indep` below). -/
def containerResultOf (maxMB cap : Nat) (c : Container) : ContainerResult :=
  let st := blobLoop maxMB cap c.blobs 0 ⟨0, 0, []⟩ ⟨0, 0⟩
  ⟨c.name, st.1.blobs_scanned, st.1.blobs_with_pii, st.1.findings⟩

/-- All `ContainerResult`s a run of `scan_storage_account` produces
(none when container enumeration fails). -/
def producedContainerResults (maxMB cap : Nat)
    (containers : Except String (List Container)) : List ContainerResult :=
  match containers with
  | .error _ => []
  | .ok cs => cs.map (containerResultOf maxMB cap)

/-! ### Static analysis of patterns: length bounds, character sets -/

/-- Least number of characters any match of `re` consumes. -/
def minLen : RE → Nat
  | .cls _ => 1
  | .wb => 0
  | .seq a b => minLen a + minLen b
  | .grp a => minLen a
  | .rep a lo _ => lo * minLen a

def optAdd : Option Nat → Option Nat → Option Nat
  | some x, some y => some (x + y)
  | _, _ => none

def optMulBound : Option Nat → Option Nat → Option Nat
  | some h, some x => some (h * x)
  | _, _ => none

/-- Greatest number of characters any match of `re` consumes
(`none` for unbounded repetition). -/
def maxLen : RE → Option Nat
  | .cls _ => some 1
  | .wb => some 0
  | .seq a b => optAdd (maxLen a) (maxLen b)
  | .grp a => maxLen a
  | .rep a _ hi => optMulBound hi (maxLen a)

/-- Every character class of `re` only accepts characters satisfying `P`. -/
def SatOK (P : Char → Bool) : RE → Prop
  | .cls q => ∀ c, q c = true → P c = true
  | .wb => True
  | .seq a b => SatOK P a ∧ SatOK P b
  | .grp a => SatOK P a
  | .rep a _ _ => SatOK P a

theorem mem_of_head?_eq {α : Type} {l : List α} {a : α} (h : l.head? = some a) : a ∈ l := by
  cases l with
  | nil => simp at h
  | cons x xs => simp at h; simp [h]

/-- A match never ends before `minLen re` consumed characters. -/
theorem mrun_minLen (cs : Chars) :
    ∀ (f : Nat) (re : RE) (i : Nat) (cap : Option Span) (r : MRes),
      r ∈ mrun cs f re i cap → i + minLen re ≤ r.fin := by
  intro f
  induction f with
  | zero => intro re i cap r hr; simp [mrun] at hr
  | succ f ih =>
    intro re i cap r hr
    cases re with
    | cls p =>
      simp only [mrun] at hr
      cases hcs : cs[i]? with
      | none => simp [hcs] at hr
      | some c =>
        rw [hcs] at hr
        by_cases hp : p c = true
        · simp [hp] at hr; simp [hr, minLen]
        · simp [hp] at hr
    | wb =>
      simp only [mrun] at hr
      by_cases hb : atBoundary cs i = true
      · simp [hb] at hr; simp [hr, minLen]
      · simp [hb] at hr
    | seq a b =>
      simp only [mrun, List.mem_flatMap] at hr
      rcases hr with ⟨r1, h1, h2⟩
      have ha := ih a i cap r1 h1
      have hb := ih b r1.fin r1.cap r h2
      simp only [minLen]; omega
    | grp a =>
      simp only [mrun, List.mem_map] at hr
      rcases hr with ⟨r1, h1, rfl⟩
      have := ih a i cap r1 h1
      simpa [minLen] using this
    | rep a lo hi =>
      cases lo with
      | zero =>
        have hfin : i ≤ r.fin := by
          cases hi with
          | none =>
            simp only [mrun, List.mem_append, List.mem_flatMap] at hr
            rcases hr with ⟨r1, h1, h2⟩ | hr
            · have ha := ih a i cap r1 h1
              have hb := ih (.rep a 0 none) r1.fin r1.cap r h2
              omega
            · simp at hr; simp [hr]
          | some h =>
            cases h with
            | zero => simp only [mrun] at hr; simp at hr; simp [hr]
            | succ h =>
              simp only [mrun, List.mem_append, List.mem_flatMap] at hr
              rcases hr with ⟨r1, h1, h2⟩ | hr
              · have ha := ih a i cap r1 h1
                have hb := ih (.rep a 0 (some h)) r1.fin r1.cap r h2
                simp only [minLen] at hb; omega
              · simp at hr; simp [hr]
        simpa [minLen] using hfin
      | succ l =>
        cases hi with
        | none =>
          simp only [mrun, List.mem_flatMap] at hr
          rcases hr with ⟨r1, h1, h2⟩
          have ha := ih a i cap r1 h1
          have hb := ih (.rep a l none) r1.fin r1.cap r h2
          simp only [minLen, Nat.succ_mul] at *
          omega
        | some h =>
          cases h with
          | zero => simp [mrun] at hr
          | succ h =>
            simp only [mrun, List.mem_flatMap] at hr
            rcases hr with ⟨r1, h1, h2⟩
            have ha := ih a i cap r1 h1
            have hb := ih (.rep a l (some h)) r1.fin r1.cap r h2
            simp only [minLen, Nat.succ_mul] at *
            omega

/-- A match starting inside the text ends inside it. -/
theorem mrun_fin_le (cs : Chars) :
    ∀ (f : Nat) (re : RE) (i : Nat) (cap : Option Span) (r : MRes),
      r ∈ mrun cs f re i cap → i ≤ cs.length → r.fin ≤ cs.length := by
  intro f
  induction f with
  | zero => intro re i cap r hr _; simp [mrun] at hr
  | succ f ih =>
    intro re i cap r hr hi
    cases re with
    | cls p =>
      simp only [mrun] at hr
      cases hcs : cs[i]? with
      | none => simp [hcs] at hr
      | some c =>
        rw [hcs] at hr
        by_cases hp : p c = true
        · simp [hp] at hr
          have hlt : i < cs.length := by
            by_contra hge
            rw [List.getElem?_eq_none (by omega)] at hcs
            exact Option.noConfusion hcs
          simp [hr]; omega
        · simp [hp] at hr
    | wb =>
      simp only [mrun] at hr
      by_cases hb : atBoundary cs i = true
      · simp [hb] at hr; simp [hr]; omega
      · simp [hb] at hr
    | seq a b =>
      simp only [mrun, List.mem_flatMap] at hr
      rcases hr with ⟨r1, h1, h2⟩
      exact ih b r1.fin r1.cap r h2 (ih a i cap r1 h1 hi)
    | grp a =>
      simp only [mrun, List.mem_map] at hr
      rcases hr with ⟨r1, h1, rfl⟩
      exact ih a i cap r1 h1 hi
    | rep a lo hi =>
      cases lo with
      | zero =>
        cases hi with
        | none =>
          simp only [mrun, List.mem_append, List.mem_flatMap] at hr
          rcases hr with ⟨r1, h1, h2⟩ | hr
          · exact ih (.rep a 0 none) r1.fin r1.cap r h2 (ih a i cap r1 h1 hi)
          · simp at hr; simp [hr]; omega
        | some h =>
          cases h with
          | zero => simp only [mrun] at hr; simp at hr; simp [hr]; omega
          | succ h =>
            simp only [mrun, List.mem_append, List.mem_flatMap] at hr
            rcases hr with ⟨r1, h1, h2⟩ | hr
            · exact ih (.rep a 0 (some h)) r1.fin r1.cap r h2 (ih a i cap r1 h1 hi)
            · simp at hr; simp [hr]; omega
      | succ l =>
        cases hi with
        | none =>
          simp only [mrun, List.mem_flatMap] at hr
          rcases hr with ⟨r1, h1, h2⟩
          exact ih (.rep a l none) r1.fin r1.cap r h2 (ih a i cap r1 h1 hi)
        | some h =>
          cases h with
          | zero => simp [mrun] at hr
          | succ h =>
            simp only [mrun, List.mem_flatMap] at hr
            rcases hr with ⟨r1, h1, h2⟩
            exact ih (.rep a l (some h)) r1.fin r1.cap r h2 (ih a i cap r1 h1 hi)

/-- Characters a match consumed all satisfy the pattern's character sets. -/
theorem mrun_sat (cs : Chars) (P : Char → Bool) :
    ∀ (f : Nat) (re : RE) (i : Nat) (cap : Option Span) (r : MRes),
      r ∈ mrun cs f re i cap → SatOK P re →
        ∀ k, i ≤ k → k < r.fin → ∃ c, cs[k]? = some c ∧ P c = true := by
  intro f
  induction f with
  | zero => intro re i cap r hr; simp [mrun] at hr
  | succ f ih =>
    intro re i cap r hr hs k hk1 hk2
    cases re with
    | cls p =>
      simp only [mrun] at hr
      cases hcs : cs[i]? with
      | none => simp [hcs] at hr
      | some c =>
        rw [hcs] at hr
        by_cases hp : p c = true
        · simp [hp] at hr
          have hk : k = i := by simp [hr] at hk2; omega
          exact ⟨c, hk ▸ hcs, hs c hp⟩
        · simp [hp] at hr
    | wb =>
      simp only [mrun] at hr
      by_cases hb : atBoundary cs i = true
      · simp [hb] at hr; simp [hr] at hk2; omega
      · simp [hb] at hr
    | seq a b =>
      simp only [mrun, List.mem_flatMap] at hr
      rcases hr with ⟨r1, h1, h2⟩
      by_cases hk : k < r1.fin
      · exact ih a i cap r1 h1 hs.1 k hk1 hk
      · exact ih b r1.fin r1.cap r h2 hs.2 k (by omega) hk2
    | grp a =>
      simp only [mrun, List.mem_map] at hr
      rcases hr with ⟨r1, h1, rfl⟩
      exact ih a i cap r1 h1 hs k hk1 hk2
    | rep a lo hi =>
      cases lo with
      | zero =>
        cases hi with
        | none =>
          simp only [mrun, List.mem_append, List.mem_flatMap] at hr
          rcases hr with ⟨r1, h1, h2⟩ | hr
          · by_cases hk : k < r1.fin
            · exact ih a i cap r1 h1 hs k hk1 hk
            · exact ih (.rep a 0 none) r1.fin r1.cap r h2 hs k (by omega) hk2
          · simp at hr; simp [hr] at hk2; omega
        | some h =>
          cases h with
          | zero => simp only [mrun] at hr; simp at hr; simp [hr] at hk2; omega
          | succ h =>
            simp only [mrun, List.mem_append, List.mem_flatMap] at hr
            rcases hr with ⟨r1, h1, h2⟩ | hr
            · by_cases hk : k < r1.fin
              · exact ih a i cap r1 h1 hs k hk1 hk
              · exact ih (.rep a 0 (some h)) r1.fin r1.cap r h2 hs k (by omega) hk2
            · simp at hr; simp [hr] at hk2; omega
      | succ l =>
        cases hi with
        | none =>
          simp only [mrun, List.mem_flatMap] at hr
          rcases hr with ⟨r1, h1, h2⟩
          by_cases hk : k < r1.fin
          · exact ih a i cap r1 h1 hs k hk1 hk
          · exact ih (.rep a l none) r1.fin r1.cap r h2 hs k (by omega) hk2
        | some h =>
          cases h with
          | zero => simp [mrun] at hr
          | succ h =>
            simp only [mrun, List.mem_flatMap] at hr
            rcases hr with ⟨r1, h1, h2⟩
            by_cases hk : k < r1.fin
            · exact ih a i cap r1 h1 hs k hk1 hk
            · exact ih (.rep a l (some h)) r1.fin r1.cap r h2 hs k (by omega) hk2

/-- A group-free pattern hands the capture through unchanged. -/
theorem mrun_nogrp_cap (cs : Chars) :
    ∀ (f : Nat) (re : RE) (i : Nat) (cap : Option Span) (r : MRes),
      r ∈ mrun cs f re i cap → hasGrp re = false → r.cap = cap := by
  intro f
  induction f with
  | zero => intro re i cap r hr; simp [mrun] at hr
  | succ f ih =>
    intro re i cap r hr hg
    cases re with
    | cls p =>
      simp only [mrun] at hr
      cases hcs : cs[i]? with
      | none => simp [hcs] at hr
      | some c =>
        rw [hcs] at hr
        by_cases hp : p c = true
        · simp [hp] at hr; simp [hr]
        · simp [hp] at hr
    | wb =>
      simp only [mrun] at hr
      by_cases hb : atBoundary cs i = true
      · simp [hb] at hr; simp [hr]
      · simp [hb] at hr
    | seq a b =>
      simp only [hasGrp, Bool.or_eq_false_iff] at hg
      simp only [mrun, List.mem_flatMap] at hr
      rcases hr with ⟨r1, h1, h2⟩
      rw [ih b r1.fin r1.cap r h2 hg.2, ih a i cap r1 h1 hg.1]
    | grp a => simp [hasGrp] at hg
    | rep a lo hi =>
      simp only [hasGrp] at hg
      cases lo with
      | zero =>
        cases hi with
        | none =>
          simp only [mrun, List.mem_append, List.mem_flatMap] at hr
          rcases hr with ⟨r1, h1, h2⟩ | hr
          · rw [ih (.rep a 0 none) r1.fin r1.cap r h2 hg, ih a i cap r1 h1 hg]
          · simp at hr; simp [hr]
        | some h =>
          cases h with
          | zero => simp only [mrun] at hr; simp at hr; simp [hr]
          | succ h =>
            simp only [mrun, List.mem_append, List.mem_flatMap] at hr
            rcases hr with ⟨r1, h1, h2⟩ | hr
            · rw [ih (.rep a 0 (some h)) r1.fin r1.cap r h2 hg, ih a i cap r1 h1 hg]
            · simp at hr; simp [hr]
      | succ l =>
        cases hi with
        | none =>
          simp only [mrun, List.mem_flatMap] at hr
          rcases hr with ⟨r1, h1, h2⟩
          rw [ih (.rep a l none) r1.fin r1.cap r h2 hg, ih a i cap r1 h1 hg]
        | some h =>
          cases h with
          | zero => simp [mrun] at hr
          | succ h =>
            simp only [mrun, List.mem_flatMap] at hr
            rcases hr with ⟨r1, h1, h2⟩
            rw [ih (.rep a l (some h)) r1.fin r1.cap r h2 hg, ih a i cap r1 h1 hg]

/-- A match never consumes more than `maxLen re` characters. -/
theorem mrun_maxLen (cs : Chars) :
    ∀ (f : Nat) (re : RE) (i : Nat) (cap : Option Span) (r : MRes) (M : Nat),
      r ∈ mrun cs f re i cap → maxLen re = some M → r.fin ≤ i + M := by
  intro f
  induction f with
  | zero => intro re i cap r M hr; simp [mrun] at hr
  | succ f ih =>
    intro re i cap r M hr hM
    cases re with
    | cls p =>
      simp only [maxLen, Option.some_inj] at hM
      simp only [mrun] at hr
      cases hcs : cs[i]? with
      | none => simp [hcs] at hr
      | some c =>
        rw [hcs] at hr
        by_cases hp : p c = true
        · simp [hp] at hr; simp [hr]; omega
        · simp [hp] at hr
    | wb =>
      simp only [maxLen, Option.some_inj] at hM
      simp only [mrun] at hr
      by_cases hb : atBoundary cs i = true
      · simp [hb] at hr; simp [hr]
      · simp [hb] at hr
    | seq a b =>
      simp only [maxLen] at hM
      cases hA : maxLen a with
      | none => rw [hA] at hM; simp [optAdd] at hM
      | some x =>
        cases hB : maxLen b with
        | none => rw [hA, hB] at hM; simp [optAdd] at hM
        | some y =>
          rw [hA, hB] at hM
          simp only [optAdd, Option.some_inj] at hM
          simp only [mrun, List.mem_flatMap] at hr
          rcases hr with ⟨r1, h1, h2⟩
          have ha := ih a i cap r1 x h1 hA
          have hb := ih b r1.fin r1.cap r y h2 hB
          omega
    | grp a =>
      simp only [maxLen] at hM
      simp only [mrun, List.mem_map] at hr
      rcases hr with ⟨r1, h1, rfl⟩
      exact ih a i cap r1 M h1 hM
    | rep a lo hi =>
      simp only [maxLen] at hM
      cases hi with
      | none => simp [optMulBound] at hM
      | some h =>
        cases hA : maxLen a with
        | none => rw [hA] at hM; simp [optMulBound] at hM
        | some x =>
          rw [hA] at hM
          simp only [optMulBound, Option.some_inj] at hM
          cases lo with
          | zero =>
            cases h with
            | zero => simp only [mrun] at hr; simp at hr; simp [hr]
            | succ h =>
              simp only [mrun, List.mem_append, List.mem_flatMap] at hr
              rcases hr with ⟨r1, h1, h2⟩ | hr
              · have ha := ih a i cap r1 x h1 hA
                have hb := ih (.rep a 0 (some h)) r1.fin r1.cap r (h * x) h2
                  (by simp [maxLen, optMulBound, hA])
                have : (h + 1) * x = h * x + x := by rw [Nat.succ_mul]
                omega
              · simp at hr; simp [hr]
          | succ l =>
            cases h with
            | zero => simp [mrun] at hr
            | succ h =>
              simp only [mrun, List.mem_flatMap] at hr
              rcases hr with ⟨r1, h1, h2⟩
              have ha := ih a i cap r1 x h1 hA
              have hb := ih (.rep a l (some h)) r1.fin r1.cap r (h * x) h2
                (by simp [maxLen, optMulBound, hA])
              have : (h + 1) * x = h * x + x := by rw [Nat.succ_mul]
              omega

/-! ### Slices of the subject text -/

theorem sliceCs_length (cs : Chars) (i j : Nat) (hj : j ≤ cs.length) :
    (sliceCs cs i j).length = j - i := by
  simp only [sliceCs, List.length_drop, List.length_take]
  omega

theorem sliceCs_getElem? (cs : Chars) (i j k : Nat) (h : k < j - i) :
    (sliceCs cs i j)[k]? = cs[i + k]? := by
  simp only [sliceCs]
  rw [List.getElem?_drop, List.getElem?_take]
  rw [if_pos (by omega)]

theorem sliceCs_mem {cs : Chars} {i j : Nat} {c : Char} (hc : c ∈ sliceCs cs i j) :
    ∃ k, i ≤ k ∧ k < j ∧ cs[k]? = some c := by
  rcases List.mem_iff_getElem?.mp hc with ⟨n, hn⟩
  have hlen : n < (sliceCs cs i j).length := by
    by_contra hge
    rw [List.getElem?_eq_none (by omega)] at hn
    exact Option.noConfusion hn
  have hlen2 : (sliceCs cs i j).length ≤ j - i := by
    simp only [sliceCs, List.length_drop, List.length_take]
    omega
  refine ⟨i + n, by omega, by omega, ?_⟩
  rw [← sliceCs_getElem? cs i j n (by omega)]
  exact hn

theorem sliceCs_append (cs : Chars) (i p j : Nat) (h1 : i ≤ p) (h2 : p ≤ j) :
    sliceCs cs i j = sliceCs cs i p ++ sliceCs cs p j := by
  simp only [sliceCs]
  conv_lhs => rw [← List.take_append_drop (p - i) ((cs.take j).drop i)]
  congr 1
  · rw [List.take_drop, List.take_take]
    congr 2
    omega
  · rw [List.drop_drop]
    congr 1
    omega

theorem sliceCs_cons (cs : Chars) (p j : Nat) (c : Char)
    (hc : cs[p]? = some c) (hpj : p < j) (hj : j ≤ cs.length) :
    sliceCs cs p j = c :: sliceCs cs (p + 1) j := by
  rcases List.getElem?_eq_some.mp hc with ⟨hp, hval⟩
  have hlt : p < (cs.take j).length := by
    simp only [List.length_take]
    omega
  simp only [sliceCs]
  rw [List.drop_eq_getElem_cons hlt]
  congr 1
  rw [List.getElem_take]
  exact hval

/-! ### The scanning loop of `re.findall` -/

theorem findSpansAux_mem (cs : Chars) (re : RE) :
    ∀ (steps pos s : Nat) (r : MRes), (s, r) ∈ findSpansAux cs re steps pos →
      pos ≤ s ∧ s ≤ cs.length ∧ matchAt cs re s = some r := by
  intro steps
  induction steps with
  | zero => intro pos s r h; simp [findSpansAux] at h
  | succ steps ih =>
    intro pos s r h
    simp only [findSpansAux] at h
    by_cases hp : cs.length < pos
    · simp [hp] at h
    · rw [if_neg hp] at h
      cases hm : matchAt cs re pos with
      | some r0 =>
        rw [hm] at h
        rcases List.mem_cons.mp h with heq | htail
        · have hs : s = pos ∧ r = r0 := by
            constructor <;> [exact congrArg Prod.fst heq; exact congrArg Prod.snd heq]
          rcases hs with ⟨rfl, rfl⟩
          exact ⟨Nat.le_refl _, by omega, hm⟩
        · have h3 := ih _ s r htail
          have hnext : pos ≤ (if pos < r0.fin then r0.fin else pos + 1) := by
            split <;> omega
          exact ⟨by omega, h3.2.1, h3.2.2⟩
      | none =>
        rw [hm] at h
        by_cases hpe : pos = cs.length
        · simp [hpe] at h
        · rw [if_neg hpe] at h
          have h3 := ih _ s r h
          exact ⟨by omega, h3.2.1, h3.2.2⟩

theorem findSpansAux_sorted (cs : Chars) (re : RE) :
    ∀ (steps pos : Nat),
      List.Pairwise (fun x y => x.1 < y.1) (findSpansAux cs re steps pos) := by
  intro steps
  induction steps with
  | zero => intro pos; simp [findSpansAux]
  | succ steps ih =>
    intro pos
    simp only [findSpansAux]
    by_cases hp : cs.length < pos
    · simp [hp]
    · rw [if_neg hp]
      cases hm : matchAt cs re pos with
      | some r0 =>
        refine List.Pairwise.cons ?_ (ih _)
        intro y hy
        have h3 := (findSpansAux_mem cs re _ _ y.1 y.2 (by simpa using hy)).1
        have : pos + 1 ≤ (if pos < r0.fin then r0.fin else pos + 1) := by
          split <;> omega
        omega
      | none =>
        by_cases hpe : pos = cs.length
        · simp [hpe]
        · rw [if_neg hpe]
          exact ih _

/-! ### Inversion of the matcher on each constructor -/

theorem mem_mrun_cls {cs : Chars} {f : Nat} {p : Char → Bool} {i : Nat}
    {cap : Option Span} {r : MRes} (h : r ∈ mrun cs f (.cls p) i cap) :
    ∃ c, cs[i]? = some c ∧ p c = true ∧ r = ⟨i + 1, cap⟩ := by
  cases f with
  | zero => simp [mrun] at h
  | succ f =>
    simp only [mrun] at h
    cases hcs : cs[i]? with
    | none => simp [hcs] at h
    | some c =>
      rw [hcs] at h
      by_cases hp : p c = true
      · simp [hp] at h
        exact ⟨c, rfl, hp, h⟩
      · simp [hp] at h

theorem mem_mrun_wb {cs : Chars} {f : Nat} {i : Nat} {cap : Option Span} {r : MRes}
    (h : r ∈ mrun cs f .wb i cap) : r = ⟨i, cap⟩ := by
  cases f with
  | zero => simp [mrun] at h
  | succ f =>
    simp only [mrun] at h
    by_cases hb : atBoundary cs i = true
    · simp [hb] at h; exact h
    · simp [hb] at h

theorem mem_mrun_seq {cs : Chars} {f : Nat} {a b : RE} {i : Nat}
    {cap : Option Span} {r : MRes} (h : r ∈ mrun cs f (.seq a b) i cap) :
    ∃ f1 r1, f = f1 + 1 ∧ r1 ∈ mrun cs f1 a i cap ∧ r ∈ mrun cs f1 b r1.fin r1.cap := by
  cases f with
  | zero => simp [mrun] at h
  | succ f =>
    simp only [mrun, List.mem_flatMap] at h
    rcases h with ⟨r1, h1, h2⟩
    exact ⟨f, r1, rfl, h1, h2⟩

theorem mem_mrun_grp {cs : Chars} {f : Nat} {a : RE} {i : Nat}
    {cap : Option Span} {r : MRes} (h : r ∈ mrun cs f (.grp a) i cap) :
    ∃ f1 r1, f = f1 + 1 ∧ r1 ∈ mrun cs f1 a i cap ∧ r = ⟨r1.fin, some (i, r1.fin)⟩ := by
  cases f with
  | zero => simp [mrun] at h
  | succ f =>
    simp only [mrun, List.mem_map] at h
    rcases h with ⟨r1, h1, h2⟩
    exact ⟨f, r1, rfl, h1, h2.symm⟩

/-- Inversion for the optional construct `x?` (`rep x 0 (some 1)`). -/
theorem mem_mrun_opt {cs : Chars} {f : Nat} {a : RE} {i : Nat}
    {cap : Option Span} {r : MRes} (h : r ∈ mrun cs f (.rep a 0 (some 1)) i cap) :
    r = ⟨i, cap⟩ ∨ ∃ f1 r1, r1 ∈ mrun cs f1 a i cap ∧ r = ⟨r1.fin, r1.cap⟩ := by
  cases f with
  | zero => simp [mrun] at h
  | succ f =>
    simp only [mrun, List.mem_append, List.mem_flatMap] at h
    rcases h with ⟨r1, h1, h2⟩ | h
    · right
      refine ⟨f, r1, h1, ?_⟩
      cases f with
      | zero => simp [mrun] at h2
      | succ f2 =>
        simp only [mrun] at h2
        simpa using h2
    · left
      simpa using h

/-! ### From `findall` entries to matcher facts -/

/-- Every entry of `re.findall` for a group-free pattern is the slice of
the text at some match of the pattern. -/
theorem nogrp_entry {re : RE} (hg : hasGrp re = false) {cs m : Chars}
    (hm : m ∈ reFindallCs re cs) :
    ∃ s r, s ≤ cs.length ∧ r ∈ mrun cs (bigFuel cs) re s none ∧ m = sliceCs cs s r.fin := by
  simp only [reFindallCs, hg, Bool.false_eq_true, if_false] at hm
  rcases List.mem_map.mp hm with ⟨⟨s, r⟩, hsr, rfl⟩
  have h3 := findSpansAux_mem cs re _ _ s r hsr
  exact ⟨s, r, h3.2.1, mem_of_head?_eq h3.2.2, rfl⟩

theorem entry_minLen {re : RE} (hg : hasGrp re = false) {cs m : Chars}
    (hm : m ∈ reFindallCs re cs) : minLen re ≤ m.length := by
  rcases nogrp_entry hg hm with ⟨s, r, hs, hr, rfl⟩
  have h1 := mrun_minLen cs _ re s none r hr
  have h2 := mrun_fin_le cs _ re s none r hr hs
  rw [sliceCs_length cs s r.fin h2]
  omega

theorem entry_sat {re : RE} (hg : hasGrp re = false) {P : Char → Bool}
    (hP : SatOK P re) {cs m : Chars} (hm : m ∈ reFindallCs re cs) :
    ∀ c ∈ m, P c = true := by
  rcases nogrp_entry hg hm with ⟨s, r, hs, hr, rfl⟩
  intro c hc
  rcases sliceCs_mem hc with ⟨k, hk1, hk2, hck⟩
  rcases mrun_sat cs P _ re s none r hr hP k hk1 hk2 with ⟨c2, hc2, hPc2⟩
  rw [hck] at hc2
  cases hc2
  exact hPc2

/-! ### Shape of the matches of each pattern -/

/-- Characters an SSN or credit-card match can contain. -/
def digitSepB (c : Char) : Bool := digitB c || dashSpaceB c

theorem satOK_ssn : SatOK digitSepB ssnRE := by
  simp only [ssnRE, seqs, SatOK]
  refine ⟨trivial, ?_, ?_, ?_, ?_, ?_, trivial⟩ <;>
    (intro c hc; simp [digitSepB, hc])

theorem satOK_cc : SatOK digitSepB ccRE := by
  simp only [ccRE, seqs, SatOK]
  refine ⟨trivial, ⟨?_, ?_⟩, ?_, trivial⟩ <;>
    (intro c hc; simp [digitSepB, hc])

theorem ssn_shape {cs m : Chars} (hm : m ∈ reFindallCs ssnRE cs) :
    9 ≤ m.length ∧ ∀ c ∈ m, digitSepB c = true := by
  have h1 := @entry_minLen ssnRE rfl cs m hm
  have h2 := @entry_sat ssnRE rfl digitSepB satOK_ssn cs m hm
  have h3 : minLen ssnRE = 9 := rfl
  exact ⟨by omega, h2⟩

theorem cc_shape {cs m : Chars} (hm : m ∈ reFindallCs ccRE cs) :
    16 ≤ m.length ∧ ∀ c ∈ m, digitSepB c = true := by
  have h1 := @entry_minLen ccRE rfl cs m hm
  have h2 := @entry_sat ccRE rfl digitSepB satOK_cc cs m hm
  have h3 : minLen ccRE = 16 := rfl
  exact ⟨by omega, h2⟩

/-- Characters a passport or driver-license match can contain. -/
def upDigB (c : Char) : Bool := upperB c || digitB c

theorem satOK_passport : SatOK upDigB passportRE := by
  simp only [passportRE, seqs, SatOK]
  refine ⟨trivial, ?_, ?_, trivial⟩ <;> (intro c hc; simp [upDigB, hc])

theorem satOK_dl : SatOK upDigB dlRE := by
  simp only [dlRE, seqs, SatOK]
  refine ⟨trivial, ?_, ?_, trivial⟩ <;> (intro c hc; simp [upDigB, hc])

theorem passport_shape {cs m : Chars} (hm : m ∈ reFindallCs passportRE cs) :
    7 ≤ m.length ∧ ∀ c ∈ m, upDigB c = true := by
  have h1 := @entry_minLen passportRE rfl cs m hm
  have h2 := @entry_sat passportRE rfl upDigB satOK_passport cs m hm
  have h3 : minLen passportRE = 7 := rfl
  exact ⟨by omega, h2⟩

theorem dl_shape {cs m : Chars} (hm : m ∈ reFindallCs dlRE cs) :
    8 ≤ m.length ∧ ∀ c ∈ m, upDigB c = true := by
  have h1 := @entry_minLen dlRE rfl cs m hm
  have h2 := @entry_sat dlRE rfl upDigB satOK_dl cs m hm
  have h3 : minLen dlRE = 8 := rfl
  exact ⟨by omega, h2⟩

/-- Characters an IP-address match can contain. -/
def digDotB (c : Char) : Bool := digitB c || c = '.'

theorem satOK_ip : SatOK digDotB ipRE := by
  simp only [ipRE, seqs, SatOK, chrRE]
  refine ⟨trivial, ?_, ?_, ?_, ?_, ?_, ?_, ?_, trivial⟩ <;>
    (intro c hc; simp [digDotB] at hc ⊢; simp [hc])

theorem ip_shape {cs m : Chars} (hm : m ∈ reFindallCs ipRE cs) :
    7 ≤ m.length ∧ ∀ c ∈ m, digDotB c = true := by
  have h1 := @entry_minLen ipRE rfl cs m hm
  have h2 := @entry_sat ipRE rfl digDotB satOK_ip cs m hm
  have h3 : minLen ipRE = 7 := rfl
  exact ⟨by omega, h2⟩

theorem satOK_aws : SatOK upperDigitB awsRE := by
  simp only [awsRE, seqs, SatOK]
  exact ⟨trivial, fun c hc => hc, trivial⟩

theorem aws_shape {cs m : Chars} (hm : m ∈ reFindallCs awsRE cs) :
    20 ≤ m.length ∧ ∀ c ∈ m, upperDigitB c = true := by
  have h1 := @entry_minLen awsRE rfl cs m hm
  have h2 := @entry_sat awsRE rfl upperDigitB satOK_aws cs m hm
  have h3 : minLen awsRE = 20 := rfl
  exact ⟨by omega, h2⟩

/-- A match of a literal-headed pattern starts with that literal. -/
theorem litSeq_start (cs : Chars) :
    ∀ (l : List Char) (rest : RE) (f i : Nat) (cap : Option Span) (r : MRes),
      r ∈ mrun cs f (litSeq l rest) i cap →
        ∀ k, k < l.length → cs[i + k]? = l[k]? := by
  intro l
  induction l with
  | nil => intro rest f i cap r hr k hk; simp at hk
  | cons c t ih =>
    intro rest f i cap r hr k hk
    simp only [litSeq] at hr
    rcases mem_mrun_seq hr with ⟨f1, r1, rfl, h1, h2⟩
    rcases mem_mrun_cls h1 with ⟨c0, hc0, hpc, rfl⟩
    have hcc : c0 = c := by simpa using hpc
    cases k with
    | zero => simpa using hcc ▸ hc0
    | succ k2 =>
      have := ih rest f1 (i + 1) cap r h2 k2 (by simpa using hk)
      have harith : i + (k2 + 1) = i + 1 + k2 := by omega
      rw [harith]
      simpa using this

theorem azure_shape {cs m : Chars} (hm : m ∈ reFindallCs azureRE cs) :
    58 ≤ m.length ∧ m[3]? = some 'a' := by
  rcases @nogrp_entry azureRE rfl cs m hm with ⟨s, r, hs, hr, rfl⟩
  have h1 := mrun_minLen cs _ azureRE s none r hr
  have h2 := mrun_fin_le cs _ azureRE s none r hr hs
  have h3 : minLen azureRE = 58 := rfl
  have hlen : (sliceCs cs s r.fin).length = r.fin - s := sliceCs_length cs s r.fin h2
  constructor
  · omega
  · rw [sliceCs_getElem? cs s r.fin 3 (by omega)]
    have h4 := litSeq_start cs "DefaultEndpointsProtocol=https;AccountName=".data _ _ s none r hr
      3 (by decide)
    rw [h4]
    decide

/-- The part of the phone pattern after the optional capture group. -/
def phoneTail : RE :=
  seqs [.rep (chrRE '(') 0 (some 1), .rep (.cls digitB) 3 (some 3), .rep (chrRE ')') 0 (some 1),
        .rep (.cls phoneSepB) 0 (some 1), .rep (.cls digitB) 3 (some 3),
        .rep (.cls phoneSepB) 0 (some 1), .rep (.cls digitB) 4 (some 4), .wb]

theorem phoneRE_eq :
    phoneRE = .seq .wb (.seq (.rep (.grp phoneCcBody) 0 (some 1)) phoneTail) := rfl

/-- The capture of a phone match is either absent or a span of at most
4 characters (`+`, one or two digits, one whitespace character). -/
theorem phone_cap {cs : Chars} {f i : Nat} {r : MRes}
    (hr : r ∈ mrun cs f phoneRE i none) (hi : i ≤ cs.length) :
    r.cap = none ∨ ∃ a b, r.cap = some (a, b) ∧ a ≤ b ∧ b ≤ cs.length ∧ b - a ≤ 4 := by
  rw [phoneRE_eq] at hr
  rcases mem_mrun_seq hr with ⟨f1, r1, _, h1, h2⟩
  have e1 := mem_mrun_wb h1
  subst e1
  dsimp only at h2
  rcases mem_mrun_seq h2 with ⟨f2, r2, _, h3, h4⟩
  have hcap : r.cap = r2.cap := mrun_nogrp_cap cs f2 phoneTail r2.fin r2.cap r h4 rfl
  rcases mem_mrun_opt h3 with heq | ⟨f3, r3, h5, heq⟩
  · left
    rw [hcap, heq]
  · rcases mem_mrun_grp h5 with ⟨f4, r4, _, h6, heq4⟩
    right
    have hmin := mrun_minLen cs f4 phoneCcBody i none r4 h6
    have hfl := mrun_fin_le cs f4 phoneCcBody i none r4 h6 hi
    have hmax := mrun_maxLen cs f4 phoneCcBody i none r4 4 h6 rfl
    refine ⟨i, r4.fin, ?_, by omega, hfl, by omega⟩
    rw [hcap, heq, heq4]

/-- Every entry `re.findall` produces for the phone pattern has at most
4 characters. -/
theorem phone_entry {cs m : Chars} (hm : m ∈ reFindallCs phoneRE cs) : m.length ≤ 4 := by
  simp only [reFindallCs] at hm
  rcases List.mem_map.mp hm with ⟨⟨s, r⟩, hsr, hentry⟩
  have h3 := findSpansAux_mem cs phoneRE _ _ s r hsr
  have hr := mem_of_head?_eq h3.2.2
  have hg : hasGrp phoneRE = true := rfl
  simp only [hg, if_true] at hentry
  rcases phone_cap hr h3.2.1 with hnone | ⟨a, b, hab, hab1, hab2, hab3⟩
  · rw [hnone] at hentry
    simp only at hentry
    rw [← hentry]
    decide
  · rw [hab] at hentry
    simp only at hentry
    rw [← hentry]
    have := sliceCs_length cs a b hab2
    omega

/-- The part of the email pattern after the `'@'`. -/
def emailTail : RE :=
  seqs [.rep (.cls emailDomB) 1 none, chrRE '.', .rep (.cls emailTldB) 2 none, .wb]

theorem emailRE_eq :
    emailRE =
      .seq .wb (.seq (.rep (.cls emailLocalB) 1 none) (.seq (chrRE '@') emailTail)) := rfl

/-- Characters allowed after the `'@'` of an email match. -/
def emailDomTailB (c : Char) : Bool := emailDomB c || c = '.' || emailTldB c

theorem satOK_emailTail : SatOK emailDomTailB emailTail := by
  simp only [emailTail, seqs, SatOK, chrRE]
  refine ⟨?_, ?_, ?_, trivial⟩
  · intro c hc
    simp [emailDomTailB, hc]
  · intro c hc
    have hcc : c = '.' := by simpa using hc
    subst hcc
    decide
  · intro c hc
    simp [emailDomTailB, hc]

/-- Every email match splits as a non-empty local part, one `'@'`, and a
domain part free of `'@'`. -/
theorem email_shape {cs m : Chars} (hm : m ∈ reFindallCs emailRE cs) :
    ∃ loc dom, m = loc ++ '@' :: dom ∧ loc ≠ [] ∧
      (∀ c ∈ loc, emailLocalB c = true) ∧ '@' ∉ dom := by
  rcases @nogrp_entry emailRE rfl cs m hm with ⟨s, r, hs, hr, rfl⟩
  have hfin := mrun_fin_le cs _ emailRE s none r hr hs
  rw [emailRE_eq] at hr
  rcases mem_mrun_seq hr with ⟨f1, r1, _, h1, h2⟩
  have e1 := mem_mrun_wb h1
  subst e1
  dsimp only at h2
  rcases mem_mrun_seq h2 with ⟨f2, r2, _, h3, h4⟩
  rcases mem_mrun_seq h4 with ⟨f3, r3, _, h5, h6⟩
  rcases mem_mrun_cls h5 with ⟨c0, hc0, hpc, e3⟩
  have hc0at : c0 = '@' := by simpa using hpc
  subst hc0at
  subst e3
  dsimp only at h6
  have hminLoc : s + 1 ≤ r2.fin := mrun_minLen cs f2 _ s none r2 h3
  have hminTail : r2.fin + 1 + 4 ≤ r.fin := mrun_minLen cs f3 emailTail (r2.fin + 1) r2.cap r h6
  have hplt : r2.fin < cs.length := by
    rcases List.getElem?_eq_some.mp hc0 with ⟨hlt, _⟩
    exact hlt
  have hsatLoc := mrun_sat cs emailLocalB f2 (.rep (.cls emailLocalB) 1 none) s none r2 h3
    (by simp only [SatOK]; exact fun c hc => hc)
  have hsatTail := mrun_sat cs emailDomTailB f3 emailTail (r2.fin + 1) r2.cap r h6 satOK_emailTail
  refine ⟨sliceCs cs s r2.fin, sliceCs cs (r2.fin + 1) r.fin, ?_, ?_, ?_, ?_⟩
  · rw [sliceCs_append cs s r2.fin r.fin (by omega) (by omega)]
    congr 1
    exact sliceCs_cons cs r2.fin r.fin '@' hc0 (by omega) hfin
  · have hl : (sliceCs cs s r2.fin).length = r2.fin - s :=
      sliceCs_length cs s r2.fin (by omega)
    intro hnil
    rw [hnil] at hl
    simp at hl
    omega
  · intro c hc
    rcases sliceCs_mem hc with ⟨k, hk1, hk2, hck⟩
    rcases hsatLoc k hk1 hk2 with ⟨c2, hc2, hP⟩
    rw [hck] at hc2
    cases hc2
    exact hP
  · intro hmem
    rcases sliceCs_mem hmem with ⟨k, hk1, hk2, hck⟩
    rcases hsatTail k hk1 hk2 with ⟨c2, hc2, hP⟩
    rw [hck] at hc2
    cases hc2
    exact absurd hP (by decide)

/-! ### Computation of the redaction branches -/

theorem toNat_coe_sub (n k : Nat) : (((n : Int)) - (k : Int)).toNat = n - k := by
  omega

theorem redactOne_last4 (name : String) (m : Chars)
    (h1 : name = "SSN" ∨ name = "Credit Card" ∨ name = "Phone Number") :
    redactOne name m = some (some (List.replicate (m.length - 4) '*' ++ pyLast 4 m)) := by
  have hE : ¬(name = "Email") := by rcases h1 with rfl | rfl | rfl <;> decide
  unfold redactOne
  rw [if_neg hE, if_pos (by rcases h1 with rfl | rfl | rfl <;> decide)]
  rw [pyRepeat]
  have : ((m.length : Int) - 4).toNat = m.length - 4 := by omega
  rw [this]

theorem redactOne_phone_short (m : Chars) (h : m.length ≤ 4) :
    redactOne "Phone Number" m = some (some m) := by
  rw [redactOne_last4 "Phone Number" m (by tauto)]
  have h1 : m.length - 4 = 0 := by omega
  have h2 : pyLast 4 m = m := by
    rw [pyLast]
    have : m.length - 4 = 0 := by omega
    rw [this, List.drop_zero]
  rw [h1, h2]
  simp

theorem redactOne_generic (name : String) (m : Chars)
    (hE : name ≠ "Email") (hS : name ≠ "SSN") (hC : name ≠ "Credit Card")
    (hP : name ≠ "Phone Number") (h6 : 6 < m.length) :
    redactOne name m =
      some (some (m.take 3 ++ List.replicate (m.length - 6) '*' ++ pyLast 3 m)) := by
  unfold redactOne
  rw [if_neg hE, if_neg (by simp [hS, hC, hP]), if_pos h6]
  rw [pyRepeat]
  have : ((m.length : Int) - 6).toNat = m.length - 6 := by omega
  rw [this]

/-! ### Python `split` on the shapes email matches take -/

theorem pySplit_no_sep (sep : Char) : ∀ l : Chars, sep ∉ l → pySplit sep l = [l] := by
  intro l
  induction l with
  | nil => intro _; rfl
  | cons c t ih =>
    intro h
    have hc : ¬(c = sep) := fun hcc => h (hcc ▸ List.mem_cons_self c t)
    have ht : sep ∉ t := fun htt => h (List.mem_cons_of_mem c htt)
    simp only [pySplit]
    rw [if_neg hc, ih ht]

theorem pySplit_append (sep : Char) :
    ∀ a b : Chars, sep ∉ a → pySplit sep (a ++ sep :: b) = a :: pySplit sep b := by
  intro a
  induction a with
  | nil =>
    intro b _
    simp [pySplit]
  | cons c t ih =>
    intro b h
    have hc : ¬(c = sep) := fun hcc => h (hcc ▸ List.mem_cons_self c t)
    have ht : sep ∉ t := fun htt => h (List.mem_cons_of_mem c htt)
    simp only [List.cons_append, pySplit, List.append_eq]
    rw [if_neg hc, ih b ht]

theorem drop_pred_eq_getLast :
    ∀ (l : Chars) (c : Char), l.getLast? = some c → l.drop (l.length - 1) = [c] := by
  intro l
  induction l with
  | nil => intro c h; simp at h
  | cons a t ih =>
    intro c h
    cases t with
    | nil =>
      simp at h
      simp [h]
    | cons b t2 =>
      rw [List.getLast?_cons_cons] at h
      have := ih c h
      have hlen : (a :: b :: t2).length - 1 = (b :: t2).length := by simp
      rw [hlen]
      have : (a :: b :: t2).drop (b :: t2).length = (b :: t2).drop ((b :: t2).length - 1) := by
        simp
      rw [this]
      exact ih c h

/-- The Email redaction branch on a decomposed match. -/
theorem redactOne_email (loc dom : Chars) (hloc : loc ≠ [])
    (hlocAt : '@' ∉ loc) (hdomAt : '@' ∉ dom) :
    redactOne "Email" (loc ++ '@' :: dom) =
      some (some (loc.take 1 ++ List.replicate (loc.length - 2) '*' ++
        loc.drop (loc.length - 1) ++ '@' :: dom)) := by
  unfold redactOne
  rw [if_pos rfl]
  have hsplit : pySplit '@' (loc ++ '@' :: dom) = loc :: pySplit '@' dom :=
    pySplit_append '@' loc dom hlocAt
  have hdom : pySplit '@' dom = [dom] := pySplit_no_sep '@' dom hdomAt
  rw [hsplit, hdom]
  cases loc with
  | nil => exact absurd rfl hloc
  | cons c0 t =>
    simp only [List.headD_cons, List.length_cons, List.head?_cons, List.getD_cons_succ,
      List.getD_cons_zero]
    cases hlast : (c0 :: t).getLast? with
    | none => simp at hlast
    | some cl =>
      simp only [pyRepeat]
      have hrep : (((c0 :: t).length : Int) - 2).toNat = (c0 :: t).length - 2 := by omega
      have hdrop := drop_pred_eq_getLast (c0 :: t) cl hlast
      rw [List.length_cons] at hrep
      rw [hrep]
      have htake : (c0 :: t).take 1 = [c0] := by simp
      rw [List.length_cons] at hdrop
      rw [htake, hdrop]
      simp [List.append_assoc]

/-! ### Redacted values differ from the raw match when it is long enough -/

theorem stars4_ne {m : Chars} {P : Char → Bool} (h5 : 5 ≤ m.length)
    (hsat : ∀ c ∈ m, P c = true) (hstar : P '*' = false) :
    List.replicate (m.length - 4) '*' ++ pyLast 4 m ≠ m := by
  intro heq
  have h0 : (List.replicate (m.length - 4) '*' ++ pyLast 4 m)[0]? = some '*' := by
    rw [List.getElem?_append, if_pos (by simp only [List.length_replicate]; omega),
      List.getElem?_replicate, if_pos (by omega)]
  rw [heq] at h0
  have hmem : '*' ∈ m := List.mem_iff_getElem?.mpr ⟨0, h0⟩
  have hP := hsat '*' hmem
  rw [hstar] at hP
  exact Bool.noConfusion hP

theorem take3_ne {m : Chars} (h7 : 7 ≤ m.length) {c3 : Char}
    (hm3 : m[3]? = some c3) (hc3 : c3 ≠ '*') :
    m.take 3 ++ List.replicate (m.length - 6) '*' ++ pyLast 3 m ≠ m := by
  intro heq
  have hl : (m.take 3).length = 3 := by
    simp only [List.length_take]
    omega
  have h0 : (m.take 3 ++ List.replicate (m.length - 6) '*' ++ pyLast 3 m)[3]? = some '*' := by
    rw [List.append_assoc, List.getElem?_append, if_neg (by omega), hl, Nat.sub_self,
      List.getElem?_append, if_pos (by simp only [List.length_replicate]; omega),
      List.getElem?_replicate, if_pos (by omega)]
  rw [heq, hm3] at h0
  exact hc3 (Option.some_inj.mp h0)

/-! ### Totality of the redaction loop -/

theorem redactAll_total (name : String) :
    ∀ ms : List Chars, (∀ m ∈ ms, redactOne name m ≠ none) →
      ∃ rs, redactAll name ms = some rs := by
  intro ms
  induction ms with
  | nil => intro _; exact ⟨[], rfl⟩
  | cons m t ih =>
    intro h
    rcases ih (fun m2 hm2 => h m2 (List.mem_cons_of_mem m hm2)) with ⟨rs, hrs⟩
    rcases ho : redactOne name m with _ | o
    · exact absurd ho (h m (List.mem_cons_self m t))
    · cases o with
      | none => exact ⟨rs, by simp [redactAll, ho, hrs]⟩
      | some r => exact ⟨r :: rs, by simp [redactAll, ho, hrs]⟩

/-- The Email branch on an email match, with the split computed. -/
theorem email_entry_redact {cs m : Chars} (hm : m ∈ reFindallCs emailRE cs) :
    ∃ loc dom, m = loc ++ '@' :: dom ∧ loc ≠ [] ∧ (∀ c ∈ loc, emailLocalB c = true) ∧
      '@' ∉ dom ∧
      redactOne "Email" m =
        some (some (loc.take 1 ++ List.replicate (loc.length - 2) '*' ++
          loc.drop (loc.length - 1) ++ '@' :: dom)) := by
  rcases email_shape hm with ⟨loc, dom, rfl, h1, h2, h3⟩
  have hlocAt : '@' ∉ loc := by
    intro hmem
    have := h2 '@' hmem
    exact absurd this (by decide)
  exact ⟨loc, dom, rfl, h1, h2, h3, redactOne_email loc dom h1 hlocAt h3⟩

/-- No pattern of the registry can raise inside the redaction loop. -/
theorem redactOne_entry_total :
    ∀ p ∈ PII_PATTERNS, ∀ (cs : Chars), ∀ m ∈ reFindallCs p.2 cs,
      redactOne p.1 m ≠ none := by
  intro p hp cs m hm
  simp only [PII_PATTERNS, List.mem_cons, List.not_mem_nil, or_false] at hp
  rcases hp with rfl | rfl | rfl | rfl | rfl | rfl | rfl | rfl | rfl
  · rw [redactOne_last4 _ _ (by tauto)]; simp
  · rw [redactOne_last4 _ _ (by tauto)]; simp
  · rcases email_entry_redact hm with ⟨loc, dom, _, _, _, _, hred⟩
    rw [hred]; simp
  · rw [redactOne_last4 _ _ (by tauto)]; simp
  · have h1 := (passport_shape hm).1
    rw [redactOne_generic _ _ (by decide) (by decide) (by decide) (by decide) (by omega)]
    simp
  · have h1 := (dl_shape hm).1
    rw [redactOne_generic _ _ (by decide) (by decide) (by decide) (by decide) (by omega)]
    simp
  · have h1 := (ip_shape hm).1
    rw [redactOne_generic _ _ (by decide) (by decide) (by decide) (by decide) (by omega)]
    simp
  · have h1 := (aws_shape hm).1
    rw [redactOne_generic _ _ (by decide) (by decide) (by decide) (by decide) (by omega)]
    simp
  · have h1 := (azure_shape hm).1
    rw [redactOne_generic _ _ (by decide) (by decide) (by decide) (by decide) (by omega)]
    simp

theorem scanPatterns_total_of (cs : Chars) :
    ∀ ps : List (String × RE),
      (∀ p ∈ ps, ∀ m ∈ reFindallCs p.2 cs, redactOne p.1 m ≠ none) →
        ∃ fs, scanPatterns cs ps = some fs := by
  intro ps
  induction ps with
  | nil => intro _; exact ⟨[], rfl⟩
  | cons p t ih =>
    intro h
    rcases ih (fun q hq => h q (List.mem_cons_of_mem p hq)) with ⟨fs, hfs⟩
    by_cases he : (reFindallCs p.2 cs).isEmpty = true
    · exact ⟨fs, by simp [scanPatterns, he, hfs]⟩
    · rcases redactAll_total p.1 _ (h p (List.mem_cons_self p t)) with ⟨rs, hrs⟩
      exact ⟨(p.1, ⟨(reFindallCs p.2 cs).length, (rs.take 3).map String.mk⟩) :: fs,
        by simp [scanPatterns, he, hrs, hfs]⟩

/-- `scan_text_for_pii` never raises: the model never returns `none`. -/
theorem scanTextOpt_total (text : String) : ∃ fs, scanTextOpt text = some fs :=
  scanPatterns_total_of text.data PII_PATTERNS
    (fun p hp => redactOne_entry_total p hp text.data)

/-! ### The container walk: cap, counters, aggregation -/

/-- The capped loop from `scan_count = k` examines exactly the first
`scan_depth - k` listed objects, regardless of each object's outcome. -/
theorem blobLoop_take (maxMB cap : Nat) :
    ∀ (blobs : List Blob) (k : Nat) (cst : CState) (ast : AccState),
      blobLoop maxMB cap blobs k cst ast = blobLoopU maxMB (blobs.take (cap - k)) cst ast := by
  intro blobs
  induction blobs with
  | nil => intro k cst ast; simp [blobLoop, blobLoopU]
  | cons b rest ih =>
    intro k cst ast
    by_cases hk : cap ≤ k
    · have h0 : cap - k = 0 := by omega
      simp [blobLoop, hk, h0, blobLoopU]
    · have h1 : cap - k = (cap - (k + 1)) + 1 := by omega
      rw [h1]
      simp only [blobLoop, if_neg hk, List.take_succ_cons, blobLoopU]
      exact ih (k + 1) _ _

theorem blobStep_fst (b : Blob) (r : ScanOutcome) (cst : CState) (ast ast2 : AccState) :
    (blobStep b r cst ast).1 = (blobStep b r cst ast2).1 := by
  unfold blobStep
  split_ifs <;> rfl

theorem blobStep_bs (b : Blob) (r : ScanOutcome) (cst : CState) (ast : AccState) :
    (blobStep b r cst ast).2.blobs_scanned + cst.blobs_scanned
      = ast.blobs_scanned + (blobStep b r cst ast).1.blobs_scanned := by
  unfold blobStep
  split_ifs <;> simp <;> omega

theorem blobStep_pii (b : Blob) (r : ScanOutcome) (cst : CState) (ast : AccState) :
    (blobStep b r cst ast).2.pii_found_count + cst.blobs_with_pii
      = ast.pii_found_count + (blobStep b r cst ast).1.blobs_with_pii := by
  unfold blobStep
  split_ifs <;> simp <;> omega

theorem blobStep_caps (b : Blob) (r : ScanOutcome) (cst : CState) (ast : AccState) :
    cst.blobs_scanned ≤ (blobStep b r cst ast).1.blobs_scanned ∧
    (blobStep b r cst ast).1.blobs_scanned ≤ cst.blobs_scanned + 1 ∧
    (blobStep b r cst ast).1.blobs_with_pii + cst.blobs_scanned
      ≤ (blobStep b r cst ast).1.blobs_scanned + cst.blobs_with_pii := by
  unfold blobStep
  split_ifs <;> simp <;> omega

/-- The container-side state of the walk does not depend on the
account-side counters. -/
theorem blobLoop_fst_indep (maxMB cap : Nat) :
    ∀ (blobs : List Blob) (k : Nat) (cst : CState) (ast ast2 : AccState),
      (blobLoop maxMB cap blobs k cst ast).1 = (blobLoop maxMB cap blobs k cst ast2).1 := by
  intro blobs
  induction blobs with
  | nil => intro k cst ast ast2; rfl
  | cons b rest ih =>
    intro k cst ast ast2
    by_cases hk : cap ≤ k
    · simp [blobLoop, hk]
    · simp only [blobLoop, if_neg hk]
      rw [blobStep_fst b _ cst ast ast2]
      exact ih (k + 1) _ _ _

/-- The account counters advance in lockstep with the container counters. -/
theorem blobLoop_snd_bs (maxMB cap : Nat) :
    ∀ (blobs : List Blob) (k : Nat) (cst : CState) (ast : AccState),
      (blobLoop maxMB cap blobs k cst ast).2.blobs_scanned + cst.blobs_scanned
        = ast.blobs_scanned + (blobLoop maxMB cap blobs k cst ast).1.blobs_scanned := by
  intro blobs
  induction blobs with
  | nil => intro k cst ast; simp [blobLoop]
  | cons b rest ih =>
    intro k cst ast
    by_cases hk : cap ≤ k
    · simp [blobLoop, hk]
    · simp only [blobLoop, if_neg hk]
      have h1 := ih (k + 1) (blobStep b (scan_blob b maxMB) cst ast).1
        (blobStep b (scan_blob b maxMB) cst ast).2
      have h2 := blobStep_bs b (scan_blob b maxMB) cst ast
      omega

theorem blobLoop_snd_pii (maxMB cap : Nat) :
    ∀ (blobs : List Blob) (k : Nat) (cst : CState) (ast : AccState),
      (blobLoop maxMB cap blobs k cst ast).2.pii_found_count + cst.blobs_with_pii
        = ast.pii_found_count + (blobLoop maxMB cap blobs k cst ast).1.blobs_with_pii := by
  intro blobs
  induction blobs with
  | nil => intro k cst ast; simp [blobLoop]
  | cons b rest ih =>
    intro k cst ast
    by_cases hk : cap ≤ k
    · simp [blobLoop, hk]
    · simp only [blobLoop, if_neg hk]
      have h1 := ih (k + 1) (blobStep b (scan_blob b maxMB) cst ast).1
        (blobStep b (scan_blob b maxMB) cst ast).2
      have h2 := blobStep_pii b (scan_blob b maxMB) cst ast
      omega

/-- The cap bounds `blobs_scanned`. -/
theorem blobLoop_bs_le (maxMB cap : Nat) :
    ∀ (blobs : List Blob) (k : Nat) (cst : CState) (ast : AccState),
      (blobLoop maxMB cap blobs k cst ast).1.blobs_scanned
        ≤ cst.blobs_scanned + (cap - k) := by
  intro blobs
  induction blobs with
  | nil => intro k cst ast; simp [blobLoop]
  | cons b rest ih =>
    intro k cst ast
    by_cases hk : cap ≤ k
    · simp [blobLoop, hk]
    · simp only [blobLoop, if_neg hk]
      have h1 := ih (k + 1) (blobStep b (scan_blob b maxMB) cst ast).1
        (blobStep b (scan_blob b maxMB) cst ast).2
      have h2 := (blobStep_caps b (scan_blob b maxMB) cst ast).2.1
      omega

/-- Within the walk, `blobs_with_pii` never outgrows `blobs_scanned`. -/
theorem blobLoop_wp_le (maxMB cap : Nat) :
    ∀ (blobs : List Blob) (k : Nat) (cst : CState) (ast : AccState),
      (blobLoop maxMB cap blobs k cst ast).1.blobs_with_pii + cst.blobs_scanned
        ≤ (blobLoop maxMB cap blobs k cst ast).1.blobs_scanned + cst.blobs_with_pii := by
  intro blobs
  induction blobs with
  | nil => intro k cst ast; simp [blobLoop]; omega
  | cons b rest ih =>
    intro k cst ast
    by_cases hk : cap ≤ k
    · simp [blobLoop, hk]; omega
    · simp only [blobLoop, if_neg hk]
      have h1 := ih (k + 1) (blobStep b (scan_blob b maxMB) cst ast).1
        (blobStep b (scan_blob b maxMB) cst ast).2
      have h2 := (blobStep_caps b (scan_blob b maxMB) cst ast).2.2
      omega

theorem containerResultOf_le (maxMB cap : Nat) (c : Container) :
    (containerResultOf maxMB cap c).blobs_with_pii
        ≤ (containerResultOf maxMB cap c).blobs_scanned ∧
      (containerResultOf maxMB cap c).blobs_scanned ≤ cap := by
  unfold containerResultOf
  have h1 := blobLoop_wp_le maxMB cap c.blobs 0 ⟨0, 0, []⟩ ⟨0, 0⟩
  have h2 := blobLoop_bs_le maxMB cap c.blobs 0 ⟨0, 0, []⟩ ⟨0, 0⟩
  dsimp only at h1 h2 ⊢
  exact ⟨by omega, by omega⟩

/-- What the container loop accumulates: per-container sums of the
produced results, container count, and the filtered findings list. -/
theorem accountLoop_spec (maxMB cap : Nat) :
    ∀ (conts : List Container) (ast : AccState) (n : Nat) (pf : List ContainerResult),
      (accountLoop maxMB cap conts ast n pf).1.blobs_scanned
          = ast.blobs_scanned
            + ((conts.map fun c => (containerResultOf maxMB cap c).blobs_scanned).sum) ∧
      (accountLoop maxMB cap conts ast n pf).1.pii_found_count
          = ast.pii_found_count
            + ((conts.map fun c => (containerResultOf maxMB cap c).blobs_with_pii).sum) ∧
      (accountLoop maxMB cap conts ast n pf).2.1 = n + conts.length ∧
      (accountLoop maxMB cap conts ast n pf).2.2
          = pf ++ (conts.map (containerResultOf maxMB cap)).filter
              (fun cr => 0 < cr.blobs_with_pii) := by
  intro conts
  induction conts with
  | nil => intro ast n pf; simp [accountLoop]
  | cons c rest ih =>
    intro ast n pf
    have hcr : (blobLoop maxMB cap c.blobs 0 ⟨0, 0, []⟩ ast).1
        = (blobLoop maxMB cap c.blobs 0 ⟨0, 0, []⟩ ⟨0, 0⟩).1 :=
      blobLoop_fst_indep maxMB cap c.blobs 0 ⟨0, 0, []⟩ ast ⟨0, 0⟩
    have hbs := blobLoop_snd_bs maxMB cap c.blobs 0 ⟨0, 0, []⟩ ast
    have hpii := blobLoop_snd_pii maxMB cap c.blobs 0 ⟨0, 0, []⟩ ast
    dsimp only at hbs hpii
    have hcrbs : (containerResultOf maxMB cap c).blobs_scanned
        = (blobLoop maxMB cap c.blobs 0 ⟨0, 0, []⟩ ast).1.blobs_scanned := by
      rw [hcr]; rfl
    have hcrwp : (containerResultOf maxMB cap c).blobs_with_pii
        = (blobLoop maxMB cap c.blobs 0 ⟨0, 0, []⟩ ast).1.blobs_with_pii := by
      rw [hcr]; rfl
    have hceq : (⟨c.name, (blobLoop maxMB cap c.blobs 0 ⟨0, 0, []⟩ ast).1.blobs_scanned,
          (blobLoop maxMB cap c.blobs 0 ⟨0, 0, []⟩ ast).1.blobs_with_pii,
          (blobLoop maxMB cap c.blobs 0 ⟨0, 0, []⟩ ast).1.findings⟩ : ContainerResult)
        = containerResultOf maxMB cap c := by
      rw [hcr]; rfl
    simp only [accountLoop]
    refine ⟨?_, ?_, ?_, ?_⟩
    · rw [(ih _ _ _).1, List.map_cons, List.sum_cons]
      omega
    · rw [(ih _ _ _).2.1, List.map_cons, List.sum_cons]
      omega
    · rw [(ih _ _ _).2.2.1, List.length_cons]
      omega
    · rw [(ih _ _ _).2.2.2, List.map_cons, List.filter_cons]
      simp only [hcr]
      have hceq2 : (⟨c.name,
            (blobLoop maxMB cap c.blobs 0 ⟨0, 0, []⟩ ⟨0, 0⟩).1.blobs_scanned,
            (blobLoop maxMB cap c.blobs 0 ⟨0, 0, []⟩ ⟨0, 0⟩).1.blobs_with_pii,
            (blobLoop maxMB cap c.blobs 0 ⟨0, 0, []⟩ ⟨0, 0⟩).1.findings⟩ : ContainerResult)
          = containerResultOf maxMB cap c := rfl
      simp only [hceq2]
      have hcond : (blobLoop maxMB cap c.blobs 0 ⟨0, 0, []⟩ ⟨0, 0⟩).1.blobs_with_pii
          = (containerResultOf maxMB cap c).blobs_with_pii := rfl
      simp only [hcond]
      by_cases h : 0 < (containerResultOf maxMB cap c).blobs_with_pii
      · simp [h, List.append_assoc]
      · simp [h]

/-- `scan_storage_account` in terms of the per-container results. -/
theorem scan_storage_account_spec (an rg t : String) (cs : List Container)
    (maxMB cap : Nat) :
    scan_storage_account an rg t (.ok cs) maxMB cap =
      ⟨an, rg, t, cs.length,
        ((cs.map fun c => (containerResultOf maxMB cap c).blobs_scanned).sum),
        ((cs.map fun c => (containerResultOf maxMB cap c).blobs_with_pii).sum),
        (cs.map (containerResultOf maxMB cap)).filter (fun cr => 0 < cr.blobs_with_pii)⟩ := by
  unfold scan_storage_account
  dsimp only
  have h := accountLoop_spec maxMB cap cs ⟨0, 0⟩ 0 []
  dsimp only at h
  rcases h with ⟨h1, h2, h3, h4⟩
  simp only [AccountResult.mk.injEq]
  refine ⟨trivial, trivial, trivial, by omega, by omega, by omega, by simpa using h4⟩

/-! ### Remaining redaction facts for the amended redaction claim -/

theorem generic_entry_ne {m : Chars} {P : Char → Bool} (h7 : 7 ≤ m.length)
    (hsat : ∀ c ∈ m, P c = true) (hstar : P '*' = false) :
    m.take 3 ++ List.replicate (m.length - 6) '*' ++ pyLast 3 m ≠ m := by
  rcases hm3 : m[3]? with _ | c3
  · rw [List.getElem?_eq_none_iff] at hm3
    omega
  · have hmem : c3 ∈ m := List.mem_iff_getElem?.mpr ⟨3, hm3⟩
    have hc3 : c3 ≠ '*' := by
      intro he
      rw [he] at hmem
      have := hsat '*' hmem
      rw [hstar] at this
      exact Bool.noConfusion this
    exact take3_ne h7 hm3 hc3

/-- The Email redaction equals the raw match exactly when the local part
has two characters. -/
theorem email_red_eq_iff (loc dom : Chars) (hloc : loc ≠ [])
    (hsat : ∀ c ∈ loc, emailLocalB c = true) :
    (loc.take 1 ++ List.replicate (loc.length - 2) '*' ++ loc.drop (loc.length - 1)
        ++ '@' :: dom = loc ++ '@' :: dom) ↔ loc.length = 2 := by
  have hlen0 : loc.length ≠ 0 := by simpa [List.length_eq_zero] using hloc
  constructor
  · intro heq
    by_contra hne
    rcases Nat.lt_or_ge loc.length 3 with hlt | hge
    · have hlen := congrArg List.length heq
      simp only [List.length_append, List.length_take, List.length_replicate,
        List.length_drop, List.length_cons] at hlen
      omega
    · have ht : (loc.take 1).length = 1 := by
        simp only [List.length_take]
        omega
      have h0 : (loc.take 1 ++ List.replicate (loc.length - 2) '*'
          ++ loc.drop (loc.length - 1) ++ '@' :: dom)[1]? = some '*' := by
        rw [List.append_assoc, List.append_assoc, List.getElem?_append,
          if_neg (by simp only [List.length_take]; omega), ht, Nat.sub_self,
          List.getElem?_append, if_pos (by simp only [List.length_replicate]; omega),
          List.getElem?_replicate, if_pos (by omega)]
      rw [heq] at h0
      rw [List.getElem?_append, if_pos (by omega)] at h0
      have hmem : '*' ∈ loc := List.mem_iff_getElem?.mpr ⟨1, h0⟩
      have := hsat '*' hmem
      exact absurd this (by decide)
  · intro h2
    rcases List.length_eq_two.mp h2 with ⟨a, b, rfl⟩
    simp

/-! ### Concrete artifacts used by witnesses and counterexamples -/

/-- A 15MB object (15 · 1024 · 1024 bytes). -/
def bigBlob : Blob := ⟨"big", .ok 15728640, .ok []⟩

/-- An object whose content is not valid UTF-8. -/
def binBlob : Blob := ⟨"bin", .ok 4, .ok [255]⟩

/-- A small text object containing an SSN. -/
def ssnBlob : Blob := ⟨"doc", .ok 16, .ok ("SSN: 123-45-6789".data.map Char.toNat)⟩

/-- An object whose metadata fetch fails. -/
def errBlob : Blob := ⟨"err", .error "timeout", .ok []⟩

def demoContainer : Container := ⟨"c1", [ssnBlob]⟩

/-! ### Claims -/

/-- Claim C4: for every container listing and every `scan_depth`,
`scan_storage_account` examines at most `scan_depth` objects per
container — the capped blob loop behaves exactly like the uncapped loop
run on the first `scan_depth` listed objects, so every examined object
counts toward the cap regardless of its outcome — and a listing of 150
objects with `scan_depth = 100` yields exactly 100 examined objects. -/
theorem C4_theorem :
    (∀ (maxMB cap : Nat) (blobs : List Blob) (cst : CState) (ast : AccState),
        blobLoop maxMB cap blobs 0 cst ast = blobLoopU maxMB (blobs.take cap) cst ast ∧
        (blobs.take cap).length = min cap blobs.length ∧
        (blobs.take cap).length ≤ cap) ∧
      (∀ blobs : List Blob, blobs.length = 150 → (blobs.take 100).length = 100) := by
  constructor
  · intro maxMB cap blobs cst ast
    refine ⟨?_, ?_, ?_⟩
    · have h := blobLoop_take maxMB cap blobs 0 cst ast
      simpa using h
    · rw [List.length_take]
    · rw [List.length_take]
      omega
  · intro blobs h
    rw [List.length_take, h]
    omega

theorem C4_witness :
    ((List.replicate 150 (⟨"b", .ok 0, .ok []⟩ : Blob)).take 100).length = 100 :=
  C4_theorem.2 (List.replicate 150 (⟨"b", .ok 0, .ok []⟩ : Blob)) (by simp)

/-- Claim C5: the `pii_found_count` of the returned `AccountResult`
equals the sum of `blobs_with_pii` over all `ContainerResult`s produced
during the run, including containers whose result was not appended to
`pii_findings` (`pii_findings` keeps only those with `blobs_with_pii > 0`). -/
theorem C5_theorem :
    ∀ (an rg t : String) (conts : Except String (List Container)) (maxMB cap : Nat),
      (scan_storage_account an rg t conts maxMB cap).pii_found_count
          = ((producedContainerResults maxMB cap conts).map
              (fun cr => cr.blobs_with_pii)).sum ∧
        (scan_storage_account an rg t conts maxMB cap).pii_findings
          = (producedContainerResults maxMB cap conts).filter
              (fun cr => 0 < cr.blobs_with_pii) := by
  intro an rg t conts maxMB cap
  cases conts with
  | error e => simp [scan_storage_account, producedContainerResults]
  | ok cs =>
    rw [scan_storage_account_spec]
    dsimp only
    simp only [producedContainerResults]
    constructor
    · simp only [List.map_map]
      rfl
    · trivial

/-- Claim C6: every `ContainerResult` a run of `scan_storage_account`
produces satisfies `blobs_with_pii ≤ blobs_scanned ≤ scan_depth`; the
results appended to `pii_findings` are among the produced ones. -/
theorem C6_theorem :
    (∀ (maxMB cap : Nat) (conts : Except String (List Container)),
        ∀ cr ∈ producedContainerResults maxMB cap conts,
          cr.blobs_with_pii ≤ cr.blobs_scanned ∧ cr.blobs_scanned ≤ cap) ∧
      (∀ (an rg t : String) (cs : List Container) (maxMB cap : Nat),
        ∀ cr ∈ (scan_storage_account an rg t (.ok cs) maxMB cap).pii_findings,
          cr ∈ producedContainerResults maxMB cap (.ok cs)) := by
  constructor
  · intro maxMB cap conts cr hcr
    cases conts with
    | error e => simp [producedContainerResults] at hcr
    | ok cs =>
      simp only [producedContainerResults] at hcr
      rcases List.mem_map.mp hcr with ⟨c, _, rfl⟩
      exact containerResultOf_le maxMB cap c
  · intro an rg t cs maxMB cap cr hcr
    rw [scan_storage_account_spec] at hcr
    dsimp only at hcr
    simp only [producedContainerResults]
    exact List.mem_of_mem_filter hcr

theorem C6_witness :
    (containerResultOf 10 100 demoContainer).blobs_with_pii
        ≤ (containerResultOf 10 100 demoContainer).blobs_scanned ∧
      (containerResultOf 10 100 demoContainer).blobs_scanned ≤ 100 :=
  C6_theorem.1 10 100 (.ok [demoContainer]) (containerResultOf 10 100 demoContainer)
    (by simp [producedContainerResults])

/-- Claim C7 (amended: the reason string the code produces is
`"File too large"`, capitalised): a blob whose reported size exceeds the
cap is skipped with that reason and its measured size, and the outcome
does not depend on the blob's content — the content is never fetched and
the content scanner is never invoked. -/
theorem C7_theorem :
    ∀ (b : Blob) (maxMB size : Nat), b.props = .ok size →
      maxMB * 1024 * 1024 < size →
      scan_blob b maxMB
          = ⟨false, some "File too large", some ((size : ℚ) / (1024 * 1024)), [], false⟩ ∧
        ∀ b2 : Blob, b2.props = b.props → scan_blob b2 maxMB = scan_blob b maxMB := by
  have hmain : ∀ (b3 : Blob) (maxMB size : Nat), b3.props = .ok size →
      maxMB * 1024 * 1024 < size →
      scan_blob b3 maxMB
        = ⟨false, some "File too large", some ((size : ℚ) / (1024 * 1024)), [], false⟩ := by
    intro b3 maxMB size hp hsz
    unfold scan_blob
    rw [hp]
    dsimp only
    rw [if_pos hsz]
  intro b maxMB size hp hsz
  refine ⟨hmain b maxMB size hp hsz, ?_⟩
  intro b2 hp2
  rw [hmain b2 maxMB size (hp2.trans hp) hsz, hmain b maxMB size hp hsz]

theorem C7_witness :
    10 * 1024 * 1024 < 15728640 ∧
      scan_blob bigBlob 10
        = ⟨false, some "File too large", some (((15728640 : Nat) : ℚ) / (1024 * 1024)), [], false⟩ ∧
      ((15728640 : Nat) : ℚ) / (1024 * 1024) = 15 :=
  ⟨by norm_num, (C7_theorem bigBlob 10 15728640 rfl (by norm_num)).1, by norm_num⟩

theorem C7_counterexample :
    10 * 1024 * 1024 < 15728640 ∧
      (scan_blob bigBlob 10).reason = some "File too large" ∧
      (scan_blob bigBlob 10).reason ≠ some "file too large" := by
  refine ⟨by norm_num, by decide, by decide⟩

/-- Claim C8 (amended: the reason string the code produces is
`"Not a text file"`, capitalised): a blob whose fetched content fails
strict UTF-8 decoding yields `scanned = false` with that reason, an
empty findings map and `has_pii = false`. -/
theorem C8_theorem :
    ∀ (b : Blob) (maxMB size : Nat) (bytes : List Nat),
      b.props = .ok size → ¬(maxMB * 1024 * 1024 < size) → b.content = .ok bytes →
      utf8Decode bytes = none →
      scan_blob b maxMB
        = ⟨false, some "Not a text file", some ((size : ℚ) / (1024 * 1024)), [], false⟩ := by
  intro b maxMB size bytes hp hsz hc hd
  unfold scan_blob
  rw [hp]
  dsimp only
  rw [if_neg hsz, hc]
  dsimp only
  rw [hd]

theorem C8_witness :
    utf8Decode [255] = none ∧
      scan_blob binBlob 10
        = ⟨false, some "Not a text file", some (((4 : Nat) : ℚ) / (1024 * 1024)), [], false⟩ :=
  ⟨by decide, C8_theorem binBlob 10 4 [255] rfl (by norm_num) rfl (by decide)⟩

theorem C8_counterexample :
    utf8Decode [255] = none ∧
      (scan_blob binBlob 10).reason = some "Not a text file" ∧
      (scan_blob binBlob 10).reason ≠ some "not a text file" := by
  refine ⟨by decide, by decide, by decide⟩

/-- Claim C9: for every outcome `scan_blob` returns, `has_pii` holds iff
the findings map is non-empty, and a non-scanned outcome has an empty
findings map and carries a reason. -/
theorem C9_theorem :
    ∀ (b : Blob) (maxMB : Nat),
      ((scan_blob b maxMB).has_pii = true ↔ (scan_blob b maxMB).findings ≠ []) ∧
        ((scan_blob b maxMB).scanned = false →
          (scan_blob b maxMB).findings = [] ∧ ((scan_blob b maxMB).reason).isSome = true) := by
  intro b maxMB
  unfold scan_blob
  cases b.props with
  | error e => simp
  | ok size =>
    dsimp only
    by_cases hsz : maxMB * 1024 * 1024 < size
    · simp [hsz]
    · rw [if_neg hsz]
      cases b.content with
      | error e => simp
      | ok bytes =>
        dsimp only
        cases utf8Decode bytes with
        | none => simp
        | some chars =>
          dsimp only
          constructor
          · simp [List.length_pos]
          · intro h
            simp at h

theorem C9_witness :
    (scan_blob errBlob 10).findings = [] ∧ ((scan_blob errBlob 10).reason).isSome = true :=
  (C9_theorem errBlob 10).2 (by decide)

/-- Entries of `re.findall` for a group-free pattern are slices of the
text at strictly increasing match positions. -/
theorem nogrp_findall_spans (re : RE) (hg : hasGrp re = false) (cs : Chars) :
    ∃ spans : List Span,
      List.Pairwise (fun x y => x.1 < y.1) spans ∧
      (∀ ab ∈ spans, ab.1 ≤ ab.2 ∧ ab.2 ≤ cs.length) ∧
      reFindallCs re cs = spans.map fun ab => sliceCs cs ab.1 ab.2 := by
  refine ⟨(findSpans cs re).map (fun sr => (sr.1, sr.2.fin)), ?_, ?_, ?_⟩
  · rw [List.pairwise_map]
    exact findSpansAux_sorted cs re _ _
  · intro ab hab
    rcases List.mem_map.mp hab with ⟨⟨s, r⟩, hsr, rfl⟩
    dsimp only
    have h := findSpansAux_mem cs re _ _ s r hsr
    have hmem := mem_of_head?_eq h.2.2
    have h1 := mrun_minLen cs _ re s none r hmem
    have h2 := mrun_fin_le cs _ re s none r hmem h.2.1
    exact ⟨by omega, h2⟩
  · simp only [reFindallCs, hg, Bool.false_eq_true, if_false, List.map_map]
    rfl

/-- Claim C1 (amended: for the eight group-free patterns the match list
consists of the raw matched substrings, in order of first occurrence; the
Phone Number pattern contains a capture group, so `re.findall` returns
the optional country-code captures — still substrings of the text, of at
most 4 characters, empty when the group did not participate — not the
full matched phone-number substrings). -/
theorem C1_theorem :
    (∀ p ∈ PII_PATTERNS, p.1 ≠ "Phone Number" → ∀ cs : Chars,
        ∃ spans : List Span,
          List.Pairwise (fun x y => x.1 < y.1) spans ∧
          (∀ ab ∈ spans, ab.1 ≤ ab.2 ∧ ab.2 ≤ cs.length) ∧
          reFindallCs p.2 cs = spans.map fun ab => sliceCs cs ab.1 ab.2) ∧
      (∀ cs : Chars,
        List.Pairwise (fun x y => x.1 < y.1) (findSpans cs phoneRE) ∧
        reFindallCs phoneRE cs = (findSpans cs phoneRE).map
          (fun sr => match sr.2.cap with
            | some ab => sliceCs cs ab.1 ab.2
            | none => []) ∧
        ∀ sr ∈ findSpans cs phoneRE, ∀ ab : Span, sr.2.cap = some ab →
          ab.1 ≤ ab.2 ∧ ab.2 ≤ cs.length ∧ ab.2 - ab.1 ≤ 4) := by
  constructor
  · intro p hp hne cs
    simp only [PII_PATTERNS, List.mem_cons, List.not_mem_nil, or_false] at hp
    rcases hp with rfl | rfl | rfl | rfl | rfl | rfl | rfl | rfl | rfl
    · exact nogrp_findall_spans ssnRE rfl cs
    · exact nogrp_findall_spans ccRE rfl cs
    · exact nogrp_findall_spans emailRE rfl cs
    · exact absurd rfl hne
    · exact nogrp_findall_spans passportRE rfl cs
    · exact nogrp_findall_spans dlRE rfl cs
    · exact nogrp_findall_spans ipRE rfl cs
    · exact nogrp_findall_spans awsRE rfl cs
    · exact nogrp_findall_spans azureRE rfl cs
  · intro cs
    refine ⟨findSpansAux_sorted cs phoneRE _ _, rfl, ?_⟩
    intro sr hsr ab hab
    rcases sr with ⟨s, r⟩
    have h := findSpansAux_mem cs phoneRE _ _ s r hsr
    have hr := mem_of_head?_eq h.2.2
    rcases phone_cap hr h.2.1 with hnone | ⟨a, b, hsome, h1, h2, h3⟩
    · rw [hnone] at hab
      exact Option.noConfusion hab
    · rw [hsome] at hab
      have hab2 : ab = (a, b) := (Option.some_inj.mp hab).symm
      rw [hab2]
      exact ⟨h1, h2, h3⟩

theorem C1_witness :
    ∃ spans : List Span,
      List.Pairwise (fun x y => x.1 < y.1) spans ∧
      (∀ ab ∈ spans, ab.1 ≤ ab.2 ∧ ab.2 ≤ ("SSN: 123-45-6789".data).length) ∧
      reFindallCs ssnRE "SSN: 123-45-6789".data
        = spans.map fun ab => sliceCs "SSN: 123-45-6789".data ab.1 ab.2 :=
  C1_theorem.1 ("SSN", ssnRE) (by simp [PII_PATTERNS]) (by decide) "SSN: 123-45-6789".data

/-- Claim C1 fails as stated: on `"555-123-4567"` the phone pattern
matches the full substring (positions 0 to 12), but the `re.findall`
entry is the empty string — the capture of the absent country-code
group — not the matched substring. -/
theorem C1_counterexample :
    matchAt "555-123-4567".data phoneRE 0 = some ⟨12, none⟩ ∧
      sliceCs "555-123-4567".data 0 12 = "555-123-4567".data ∧
      reFindallCs phoneRE "555-123-4567".data = [[]] ∧
      ([] : Chars) ≠ "555-123-4567".data := by
  refine ⟨by decide, by decide, by decide, by decide⟩

/-- Claim C2 (amended: the raw SSN match `"123-45-6789"` has 11
characters, so the redacted sample keeps the last 4 and masks 7, giving
`"*******6789"`, not `"*****6789"`). -/
theorem C2_theorem :
    scan_text_for_pii "SSN: 123-45-6789" = [("SSN", ⟨1, ["*******6789"]⟩)] := by
  decide

/-- Claim C2 fails as stated: the single SSN sample is `"*******6789"`
(7 asterisks), not `"*****6789"` (5 asterisks). -/
theorem C2_counterexample :
    (scan_text_for_pii "SSN: 123-45-6789").map (fun p => (p.1, p.2.samples))
        = [("SSN", ["*******6789"])] ∧
      ("*******6789" : String) ≠ "*****6789" := by
  refine ⟨by decide, by decide⟩

/-- Claim C3 (amended: the stated redaction bounds hold, and the
redacted sample differs from the raw match for SSN, Credit Card,
Passport, US Driver License, IP Address, AWS Access Key and Azure
Connection String matches; the exceptions the code forces are Phone
Number — whose `re.findall` entries are the at-most-4-character
country-code captures, returned unmasked, so the sample always equals
the raw entry — and Email matches whose local part has exactly two
characters, for which the redacted value equals the raw match). -/
theorem C3_theorem :
    (∀ cs m, m ∈ reFindallCs ssnRE cs →
        redactOne "SSN" m
            = some (some (List.replicate (m.length - 4) '*' ++ pyLast 4 m)) ∧
          List.replicate (m.length - 4) '*' ++ pyLast 4 m ≠ m) ∧
    (∀ cs m, m ∈ reFindallCs ccRE cs →
        redactOne "Credit Card" m
            = some (some (List.replicate (m.length - 4) '*' ++ pyLast 4 m)) ∧
          List.replicate (m.length - 4) '*' ++ pyLast 4 m ≠ m) ∧
    (∀ cs m, m ∈ reFindallCs emailRE cs →
        ∃ loc dom, m = loc ++ '@' :: dom ∧ loc ≠ [] ∧ '@' ∉ dom ∧
          redactOne "Email" m
            = some (some (loc.take 1 ++ List.replicate (loc.length - 2) '*' ++
                loc.drop (loc.length - 1) ++ '@' :: dom)) ∧
          ((loc.take 1 ++ List.replicate (loc.length - 2) '*' ++
              loc.drop (loc.length - 1) ++ '@' :: dom) = m ↔ loc.length = 2)) ∧
    (∀ cs m, m ∈ reFindallCs phoneRE cs →
        m.length ≤ 4 ∧ redactOne "Phone Number" m = some (some m)) ∧
    (∀ cs m, m ∈ reFindallCs passportRE cs →
        redactOne "Passport Number" m
            = some (some (m.take 3 ++ List.replicate (m.length - 6) '*' ++ pyLast 3 m)) ∧
          m.take 3 ++ List.replicate (m.length - 6) '*' ++ pyLast 3 m ≠ m) ∧
    (∀ cs m, m ∈ reFindallCs dlRE cs →
        redactOne "US Driver License" m
            = some (some (m.take 3 ++ List.replicate (m.length - 6) '*' ++ pyLast 3 m)) ∧
          m.take 3 ++ List.replicate (m.length - 6) '*' ++ pyLast 3 m ≠ m) ∧
    (∀ cs m, m ∈ reFindallCs ipRE cs →
        redactOne "IP Address" m
            = some (some (m.take 3 ++ List.replicate (m.length - 6) '*' ++ pyLast 3 m)) ∧
          m.take 3 ++ List.replicate (m.length - 6) '*' ++ pyLast 3 m ≠ m) ∧
    (∀ cs m, m ∈ reFindallCs awsRE cs →
        redactOne "AWS Access Key" m
            = some (some (m.take 3 ++ List.replicate (m.length - 6) '*' ++ pyLast 3 m)) ∧
          m.take 3 ++ List.replicate (m.length - 6) '*' ++ pyLast 3 m ≠ m) ∧
    (∀ cs m, m ∈ reFindallCs azureRE cs →
        redactOne "Azure Connection String" m
            = some (some (m.take 3 ++ List.replicate (m.length - 6) '*' ++ pyLast 3 m)) ∧
          m.take 3 ++ List.replicate (m.length - 6) '*' ++ pyLast 3 m ≠ m) := by
  refine ⟨?_, ?_, ?_, ?_, ?_, ?_, ?_, ?_, ?_⟩
  · intro cs m hm
    rcases ssn_shape hm with ⟨h9, hsat⟩
    exact ⟨redactOne_last4 _ _ (by tauto), stars4_ne (by omega) hsat (by decide)⟩
  · intro cs m hm
    rcases cc_shape hm with ⟨h16, hsat⟩
    exact ⟨redactOne_last4 _ _ (by tauto), stars4_ne (by omega) hsat (by decide)⟩
  · intro cs m hm
    rcases email_entry_redact hm with ⟨loc, dom, rfl, h1, h2, h3, hred⟩
    exact ⟨loc, dom, rfl, h1, h3, hred, email_red_eq_iff loc dom h1 h2⟩
  · intro cs m hm
    exact ⟨phone_entry hm, redactOne_phone_short m (phone_entry hm)⟩
  · intro cs m hm
    rcases passport_shape hm with ⟨h7, hsat⟩
    exact ⟨redactOne_generic _ _ (by decide) (by decide) (by decide) (by decide) (by omega),
      generic_entry_ne (by omega) hsat (by decide)⟩
  · intro cs m hm
    rcases dl_shape hm with ⟨h8, hsat⟩
    exact ⟨redactOne_generic _ _ (by decide) (by decide) (by decide) (by decide) (by omega),
      generic_entry_ne (by omega) hsat (by decide)⟩
  · intro cs m hm
    rcases ip_shape hm with ⟨h7, hsat⟩
    exact ⟨redactOne_generic _ _ (by decide) (by decide) (by decide) (by decide) (by omega),
      generic_entry_ne (by omega) hsat (by decide)⟩
  · intro cs m hm
    rcases aws_shape hm with ⟨h20, hsat⟩
    exact ⟨redactOne_generic _ _ (by decide) (by decide) (by decide) (by decide) (by omega),
      generic_entry_ne (by omega) hsat (by decide)⟩
  · intro cs m hm
    rcases azure_shape hm with ⟨h58, hm3⟩
    refine ⟨redactOne_generic _ _ (by decide) (by decide) (by decide) (by decide) (by omega), ?_⟩
    exact take3_ne (by omega) hm3 (by decide)

theorem C3_witness :
    redactOne "SSN" "123-45-6789".data
        = some (some (List.replicate ("123-45-6789".data.length - 4) '*'
            ++ pyLast 4 "123-45-6789".data)) ∧
      List.replicate ("123-45-6789".data.length - 4) '*' ++ pyLast 4 "123-45-6789".data
        ≠ "123-45-6789".data :=
  C3_theorem.1 "SSN: 123-45-6789".data "123-45-6789".data (by decide)

/-- Claim C3 fails as stated: on `"a+12 555-123-4567"` the Phone Number
match list is `["+12 "]` (the country-code capture), and the redacted
sample equals the raw entry `"+12 "` — redaction returns it unmasked. -/
theorem C3_counterexample :
    reFindallCs phoneRE "a+12 555-123-4567".data = ["+12 ".data] ∧
      redactOne "Phone Number" "+12 ".data = some (some "+12 ".data) := by
  refine ⟨by decide, by decide⟩

/-- Claim C10 (amended: `scan_text_for_pii` is total — no redaction
branch raises and `scanTextOpt` always returns `some` — but not because
the computed mask length is never applied as a negative repetition count:
short Phone Number captures do produce negative counts, which Python's
string repetition maps to the empty string; character indexing only
happens in branches whose matches are provably long enough). -/
theorem C10_theorem :
    ∀ text : String, ∃ fs, scanTextOpt text = some fs ∧ scan_text_for_pii text = fs := by
  intro text
  rcases scanTextOpt_total text with ⟨fs, hfs⟩
  exact ⟨fs, hfs, by simp [scan_text_for_pii, hfs]⟩

/-- Claim C10's stated justification fails: the Phone Number pattern's
match list on `"555-123-4567"` contains the empty capture, whose
redaction branch applies `'*' * (len - 4)` with the negative count `-4`;
the result is the empty mask, not an error. -/
theorem C10_counterexample :
    reFindallCs phoneRE "555-123-4567".data = [[]] ∧
      (((([] : Chars).length : Int) - 4) < 0) ∧
      redactOne "Phone Number" []
        = some (some (pyRepeat '*' ((([] : Chars).length : Int) - 4) ++ pyLast 4 [])) ∧
      pyRepeat '*' ((([] : Chars).length : Int) - 4) = [] := by
  refine ⟨by decide, by decide, by decide, by decide⟩

end PIIScan
